import Mathlib

/-!
Shallow embedding of the `tzbuildasset` program (src/main.rs, src/trainzutil.rs,
src/log.rs) and proofs about it.

Conventions of the embedding:
* Byte streams and text are modelled as `List Char`.  The program's regexes are
  ASCII patterns; the character classes `\s` and `\d` are modelled by their
  ASCII members and `(?i)` by ASCII lower-casing, which is exact on the inputs
  the program's grammars can accept.
* The regex engine (Rust `regex` crate) uses leftmost-first (Perl-like)
  semantics.  Each micro-grammar of the program is compiled here into an
  explicit scanner whose deterministic shortcuts are justified where they
  appear (a greedy repetition followed by a literal that its class cannot
  match never needs to backtrack).
* Fallible Rust code (including `unwrap`/`expect` panics) is modelled with
  `Option`: `none` means the operation fails and produces no result.
* `u32` counters are modelled as `Nat`; `u32::from_str` overflow is modelled
  by the explicit bound `< 2^32` in `parseU32`.
-/

namespace Tzbuildasset

/-! ## Character classes (ASCII fragments of the regex classes) -/

/-- ASCII members of the regex class `\s`. -/
def isSpaceCh (c : Char) : Bool :=
  c = ' ' || c = '\t' || c = '\n' || c = '\r' || c = '\x0b' || c = '\x0c'

/-- ASCII members of the regex class `\d`. -/
def isDigitCh (c : Char) : Bool :=
  '0' ≤ c && c ≤ '9'

/-- Case-insensitive character comparison, modelling the `(?i)` regex flag. -/
def ciEq (a b : Char) : Bool := a.toLower = b.toLower

/-! ## Generic scanner components

Each component consumes a prefix of its input and returns the remainder
(together with captured text where the grammar captures).  They mirror the
pieces of the program's regexes. -/

/-- Case-insensitive literal; returns (actually consumed text, remainder). -/
def litCG : List Char → List Char → Option (List Char × List Char)
  | [], s => some ([], s)
  | _ :: _, [] => none
  | c :: w, d :: s =>
    if ciEq d c then (litCG w s).map (fun p => (d :: p.1, p.2)) else none

/-- `\s+` (greedy): at least one whitespace char, then the maximal run. -/
def spPlus : List Char → Option (List Char)
  | [] => none
  | c :: s => if isSpaceCh c then some (s.dropWhile isSpaceCh) else none

/-- `\s*` (greedy). -/
def spStar (s : List Char) : List Char := s.dropWhile isSpaceCh

/-- A single literal character. -/
def expectC (c : Char) : List Char → Option (List Char)
  | [] => none
  | d :: s => if d = c then some s else none

/-- `(\d+)` (greedy): captures the maximal nonempty digit run. -/
def digitsCG (s : List Char) : Option (List Char × List Char) :=
  let ds := s.takeWhile isDigitCh
  if ds.isEmpty then none else some (ds, s.dropWhile isDigitCh)

/-- Numeric value of a digit string. -/
def digitsVal (ds : List Char) : Nat :=
  ds.foldl (fun a c => a * 10 + (c.toNat - '0'.toNat)) 0

/-- `u32::from_str` on a digit string: fails on overflow past `2^32`. -/
def parseU32 (ds : List Char) : Option Nat :=
  if digitsVal ds < 2 ^ 32 then some (digitsVal ds) else none

/-! ## Line splitting (`Cursor::lines` plus the explicit `\r` strip)

`BufRead::lines` splits on `0x0A` and strips a trailing newline, or CRLF pair,
from each produced line; the final segment (not newline-terminated) is
returned as-is.  `Output::from_stdout` additionally pops one trailing `'\r'`
from every line. -/

/-- Split on `'\n'`; every text has at least one (possibly empty) segment. -/
def splitNl : List Char → List (List Char)
  | [] => [[]]
  | c :: rest =>
    if c = '\n' then [] :: splitNl rest
    else
      match splitNl rest with
      | l :: ls => (c :: l) :: ls
      | [] => [[c]]

/-- Strip a single trailing carriage return, if present. -/
def stripCR (l : List Char) : List Char :=
  if l.getLast? = some '\r' then l.dropLast else l

/-- The lines of a byte stream as produced by `Cursor::lines`:
newline-terminated segments have a trailing `'\r'` (of a CRLF pair) stripped,
the final unterminated segment is kept verbatim, and a trailing newline does
not produce an extra empty line. -/
def ioLines (s : List Char) : List (List Char) :=
  let segs := splitNl s
  let term := segs.dropLast.map stripCR
  match segs.getLast? with
  | some [] => term
  | some l => term ++ [l]
  | none => term

/-- The raw lines of a byte stream (split on `'\n'`, nothing stripped); used
to state claims about "the lines of the input byte stream". -/
def rawLines (s : List Char) : List (List Char) :=
  let segs := splitNl s
  match segs.getLast? with
  | some [] => segs.dropLast
  | some l => segs.dropLast ++ [l]
  | none => segs.dropLast

/-- Join lines with `'\n'` separators (no trailing newline). -/
def joinNl : List (List Char) → List Char
  | [] => []
  | [l] => l
  | l :: ls => l ++ '\n' :: joinNl ls

/-! ## `trainzutil.rs`: the summary-line matcher and `Output::from_stdout`

`TZUTL_RESULT_MATCHER` is
`(?ix) OK \s+ \( \s* (\d+) \s+ Errors \s* , \s* (\d+) \s+ Warnings \s* \)`,
searched (unanchored) in the last line.  Every greedy repetition in it is
followed by a literal its class cannot match, so the scan is deterministic. -/

/-- Attempt to match the summary pattern at the start of `s`; returns the two
captured digit strings and the remainder after the closing parenthesis. -/
def okTail (s : List Char) : Option ((List Char × List Char) × List Char) :=
  (litCG "OK".toList s).bind fun p1 =>
  (spPlus p1.2).bind fun s1 =>
  (expectC '(' s1).bind fun s2 =>
  (digitsCG (spStar s2)).bind fun pe =>
  (spPlus pe.2).bind fun s3 =>
  (litCG "Errors".toList s3).bind fun p2 =>
  (expectC ',' (spStar p2.2)).bind fun s4 =>
  (digitsCG (spStar s4)).bind fun pw =>
  (spPlus pw.2).bind fun s5 =>
  (litCG "Warnings".toList s5).bind fun p3 =>
  (expectC ')' (spStar p3.2)).map fun s6 => ((pe.1, pw.1), s6)

/-- Unanchored leftmost search with `okTail` (i.e. `Regex::captures`). -/
def resultCaptures : List Char → Option ((List Char × List Char) × List Char)
  | [] => none
  | c :: rest => okTail (c :: rest) <|> resultCaptures rest

/-- `trainzutil::Output`. -/
structure Output where
  lines : List (List Char)
  errors : Nat
  warnings : Nat
deriving DecidableEq, Repr

/-- `Output::from_stdout`.  `none` models the `unwrap` panics: missing last
line, summary pattern not found, or a count overflowing `u32`. -/
def from_stdout (stdout : List Char) : Option Output :=
  let ls := (ioLines stdout).map stripCR
  match ls.getLast? with
  | none => none
  | some last =>
    match resultCaptures last with
    | none => none
    | some (caps, _) =>
      match parseU32 caps.1, parseU32 caps.2 with
      | some e, some w => some ⟨ls.dropLast, e, w⟩
      | _, _ => none

/-! ## `trainzutil.rs`: the diagnostic-line matcher

`TZUTIL_OUTPUT_MATCHER` is
`(?ix) (prefix: [-+!;]) \s* < (kuid: .*?) > \s* : \s* (message: .+) \r?$`.
It is not anchored at the line start; `Regex::captures` finds the leftmost
position where a match begins.  `.` does not match `'\n'`; `$` matches only
at the end of the haystack, and since the greedy `.+` also matches `'\r'`,
the trailing `\r?` never strips anything: the message capture is simply the
whole remainder when it is nonempty and newline-free. -/

/-- `(.+)\r?$`: matches iff the remainder is nonempty and newline-free; the
greedy `.+` then captures all of it (the `\r?` matches the empty string). -/
def msgEnd (r : List Char) : Option (List Char) :=
  if !r.isEmpty && r.all (fun c => !(c == '\n')) then some r else none

/-- `\s*(.+)\r?$` with leftmost-first preference: the greedy `\s*` consumes
as much as possible, backing off one char at a time until `.+` can match. -/
def spacesThenMsg : List Char → Option (List Char)
  | [] => none
  | c :: rest =>
    if isSpaceCh c then (spacesThenMsg rest) <|> msgEnd (c :: rest)
    else msgEnd (c :: rest)

/-- `\s*:\s*(.+)\r?$` (after the closing `>`): the first `\s*` is
deterministic because `':'` is not whitespace. -/
def colonMsg (r : List Char) : Option (List Char) :=
  match expectC ':' (spStar r) with
  | none => none
  | some rest => spacesThenMsg rest

/-- The lazy `(.*?)>` followed by `colonMsg`: prefer closing the capture at
each `'>'`, extending it (over anything but `'\n'`) when the tail fails. -/
def kuidScan : List Char → Option (List Char × List Char)
  | [] => none
  | c :: rest =>
    if c = '>' then
      match colonMsg rest with
      | some m => some ([], m)
      | none => (kuidScan rest).map (fun p => ('>' :: p.1, p.2))
    else if c = '\n' then none
    else (kuidScan rest).map (fun p => (c :: p.1, p.2))

/-- Attempt the diagnostic-line pattern at the start of `s`; returns
(prefix char, kuid capture, message capture). -/
def diagHere : List Char → Option (Char × List Char × List Char)
  | [] => none
  | c :: rest =>
    if c = '-' || c = '+' || c = '!' || c = ';' then
      match expectC '<' (spStar rest) with
      | none => none
      | some s => (kuidScan s).map (fun p => (c, p.1, p.2))
    else none

/-- Unanchored leftmost search with `diagHere` (i.e. `Regex::captures`). -/
def diagCaptures : List Char → Option (Char × List Char × List Char)
  | [] => none
  | c :: rest => diagHere (c :: rest) <|> diagCaptures rest

/-! ## `log.rs`: verbosity modes, severities and statistics -/

inductive Mode where
  | Silent | Normal | Verbose
deriving DecidableEq, Repr

inductive Severity where
  | Error | Warn | Info
deriving DecidableEq, Repr

/-- `Mode::accepts`. -/
def Mode.accepts : Mode → Mode → Bool
  | .Silent, other => other = .Silent
  | .Normal, other => other = .Normal
  | .Verbose, other => other = .Normal || other = .Verbose

structure Statistics where
  errors : Nat
  warnings : Nat
deriving DecidableEq, Repr

structure Logger where
  mode : Mode
  stats : Statistics
deriving DecidableEq, Repr

/-- `log::log` on an initialised logger: the statistics update happens before
and regardless of the mode check; the returned flag says whether the message
was printed. -/
def log (lg : Logger) (mode : Mode) (severity : Severity) : Logger × Bool :=
  let stats :=
    match severity with
    | .Error => { lg.stats with errors := lg.stats.errors + 1 }
    | .Warn => { lg.stats with warnings := lg.stats.warnings + 1 }
    | .Info => lg.stats
  ({ lg with stats := stats }, lg.mode.accepts mode)

/-- A log call as recorded in an execution trace: target mode and severity
(message text is omitted except where a claim needs it). -/
abbrev LogCall := Mode × Severity

/-- Run a trace of log calls through the logger. -/
def runTrace (lg : Logger) (tr : List LogCall) : Logger :=
  tr.foldl (fun l c => (log l c.1 c.2).1) lg

/-! ## `main.rs`: `KUID_MATCHER`, `USERNAME_MATCHER` and `replace_kuid`

`KUID_MATCHER` is `(?ixm) ^kuid \s+ <(kuid: kuid2? : \d+ : \d+ (: \d+)?)>`.
With the `m` flag, `^` matches at position 0 and after every `'\n'`.  All of
its repetitions are deterministic under leftmost-first semantics:
* `\s+` is greedy and followed by `'<'`, which is not whitespace;
* `2?` is greedy and followed by `':'`: if the next char is `'2'` the option
  must take it (the empty alternative would need `':'` at `'2'`), otherwise
  it cannot;
* each `\d+` is greedy and followed by `':'` or `'>'`, which are not digits;
* `(:\d+)?` must be taken exactly when a `':'` follows (else the required
  `'>'` would have to match `':'`), and if its digits are missing or the
  `'>'` after it is missing, the empty alternative fails at `':'` as well. -/

/-- `2?` before a required `':'` (see above). -/
def optTwo (s : List Char) : List Char × List Char :=
  match s with
  | c :: rest => if c = '2' then (['2'], rest) else ([], s)
  | [] => ([], s)

/-- `(:\d+)?` before a required `'>'` (see above). -/
def optColonDigits (s : List Char) : Option (List Char × List Char) :=
  match s with
  | c :: rest =>
    if c = ':' then
      match digitsCG rest with
      | some (ds, r) => some (':' :: ds, r)
      | none => none
    else some ([], s)
  | [] => some ([], s)

/-- The capture group `kuid2? : \d+ : \d+ (: \d+)?` followed by `'>'`;
returns (captured text, remainder after `'>'`). -/
def kuidGroup (s : List Char) : Option (List Char × List Char) :=
  (litCG "kuid".toList s).bind fun pk =>
  (expectC ':' (optTwo pk.2).2).bind fun s1 =>
  (digitsCG s1).bind fun pd1 =>
  (expectC ':' pd1.2).bind fun s2 =>
  (digitsCG s2).bind fun pd2 =>
  (optColonDigits pd2.2).bind fun po =>
  (expectC '>' po.2).map fun r =>
    (pk.1 ++ (optTwo pk.2).1 ++ ':' :: pd1.1 ++ ':' :: pd2.1 ++ po.1, r)

/-- The whole `KUID_MATCHER` pattern tried at one (line-start) position. -/
def kuidMatchHere (s : List Char) : Option (List Char × List Char) :=
  (litCG "kuid".toList s).bind fun p =>
  (spPlus p.2).bind fun s1 =>
  (expectC '<' s1).bind fun s2 =>
  kuidGroup s2

/-- Leftmost multiline search: try the pattern at every line start. -/
def kuidFindGo : Bool → List Char → Option (List Char)
  | _, [] => none
  | atStart, c :: rest =>
    (if atStart then (kuidMatchHere (c :: rest)).map Prod.fst else none) <|>
      kuidFindGo (c == '\n') rest

/-- `KUID_MATCHER.captures(text).name("kuid")`. -/
def kuidFind (s : List Char) : Option (List Char) := kuidFindGo true s

/-- `USERNAME_MATCHER` is `(?ixm) ^username \s+ " (name: [^"]*)` (note: no
closing quote in the pattern); the greedy `[^"]*` captures up to the next
quote or the end of the text. -/
def usernameHere (s : List Char) : Option (List Char) :=
  (litCG "username".toList s).bind fun p =>
  (spPlus p.2).bind fun s1 =>
  (expectC '"' s1).map fun s2 => s2.takeWhile (fun c => !(c == '"'))

def usernameFindGo : Bool → List Char → Option (List Char)
  | _, [] => none
  | atStart, c :: rest =>
    (if atStart then usernameHere (c :: rest) else none) <|>
      usernameFindGo (c == '\n') rest

/-- `USERNAME_MATCHER.captures(text).name("name")`. -/
def usernameFind (s : List Char) : Option (List Char) := usernameFindGo true s

def KUID_DUMMY : List Char := "kuid:298469:999999".toList

def KUID_DUMMY_TAG : List Char := "kuid  <kuid:298469:999999>".toList

/-- `KUID_MATCHER.replace(text, KUID_DUMMY_TAG)`: replace the leftmost
(line-start) match with the literal dummy tag. -/
def replaceKuidGo : Bool → List Char → List Char
  | _, [] => []
  | atStart, c :: rest =>
    if atStart then
      match kuidMatchHere (c :: rest) with
      | some (_, r) => KUID_DUMMY_TAG ++ r
      | none => c :: replaceKuidGo (c == '\n') rest
    else c :: replaceKuidGo (c == '\n') rest

/-- The text rewrite performed by `replace_kuid` on `config.txt`. -/
def replace_kuid (text : List Char) : List Char := replaceKuidGo true text

/-! ## `main.rs`: asset location

The directory tree is modelled as a finite tree: each directory optionally
has a `config.txt` (its text) and a list of named subdirectories.  Paths are
lists of directory names relative to the scan root. -/

structure Asset where
  name : List Char
  kuid : List Char
  path : List String
deriving DecidableEq, Repr

def KNOWN_DIRS : List String := [".git", ".hg"]

inductive DirTree where
  | node : Option (List Char) → List (String × DirTree) → DirTree

/-- The display name: the `username` capture, or `<kuid>` when absent or
empty. -/
def assetName (contents kuid : List Char) : List Char :=
  match usernameFind contents with
  | some name => if name.isEmpty then '<' :: (kuid ++ ['>']) else name
  | none => '<' :: (kuid ++ ['>'])

mutual

/-- `locate_assets_recursive`: returns the located assets and the log calls
made while scanning.  A directory with a `config.txt` never recurses into its
subdirectories (whether or not the identity pattern matched); a directory
without one recurses only when `recursive` is set, skipping `KNOWN_DIRS`. -/
def locateGo : DirTree → List String → Bool → List Asset × List LogCall
  | .node cfg subs, path, recursive =>
    match cfg with
    | some contents =>
      match kuidFind contents with
      | some kuid =>
        ([⟨assetName contents kuid, kuid, path⟩],
          [(.Verbose, .Info), (.Verbose, .Info), (.Normal, .Info)])
      | none => ([], [(.Verbose, .Info), (.Verbose, .Info)])
    | none =>
      if recursive then
        let sub := locateSubs subs path
        (sub.1, (.Verbose, .Info) :: sub.2)
      else ([], [(.Verbose, .Info)])

def locateSubs : List (String × DirTree) → List String → List Asset × List LogCall
  | [], _ => ([], [])
  | (n, d) :: rest, path =>
    let tail := locateSubs rest path
    if KNOWN_DIRS.contains n then tail
    else
      let head := locateGo d (path ++ [n]) true
      (head.1 ++ tail.1, head.2 ++ tail.2)

end

/-- `locate_assets`. -/
def locate_assets (tree : DirTree) (recursive : Bool) : List Asset × List LogCall :=
  locateGo tree [] recursive

/-! ## `main.rs`: the build orchestrator

External-tool results are supplied by oracles: `version` is the result of the
pre-flight call, and `results i` holds the per-stage results for the `i`-th
asset.  The filesystem staging (`copy_dir`, temp dirs) only emits
Verbose/Info log calls, abstracted as `stagingLog`; path rendering and the
label formatting rule are abstracted as `pathStr`/`labelFn`. -/

inductive ToolError where
  | Failure (out : Output)
  | NotFound
  | Unknown
deriving DecidableEq, Repr

abbrev ToolResult := Except ToolError Output

structure StageResults where
  install : ToolResult
  commit : ToolResult
  validate : ToolResult

def sevOfTag (c : Char) : Severity :=
  if c = '-' then .Error else if c = '!' then .Warn else .Info

def tierOfTag (c : Char) : Mode :=
  if c = ';' then .Verbose else .Normal

/-- The flattened silent-tier record `{prefix} {asset} : {message}`. -/
def flatRecord (p : Char) (asset msg : List Char) : List Char :=
  p :: ' ' :: (asset ++ ' ' :: ':' :: ' ' :: msg)

/-- `log_validation_output`: for every line matching the diagnostic grammar,
one severity-routed call on the human tier and one flattened silent-tier
record; other lines are ignored. -/
def log_validation_output (asset : List Char) (output : Output) :
    List (Mode × Severity × List Char) :=
  output.lines.flatMap fun line =>
    match diagCaptures line with
    | none => []
    | some (p, _, msg) =>
      [(tierOfTag p, sevOfTag p, msg), (.Silent, sevOfTag p, flatRecord p asset msg)]

/-- Outcome of `build_asset`: success flag, the TrainzUtil invocations made
(argument vectors, in order), and the log calls made. -/
structure AssetRun where
  success : Bool
  invs : List (List (List Char))
  trace : List LogCall
deriving DecidableEq, Repr

/-- `build_asset`.  The staged path/identity depend on the `install` flag;
the three stages are sequenced with `and_then`, so a failed stage skips the
following ones, and the final `or_else` logs the per-asset failure. -/
def build_asset (install : Bool) (tempPath : List Char)
    (pathStr : List String → List Char) (stagingLog : List LogCall)
    (label : List Char) (asset : Asset) (r : StageResults) : AssetRun :=
  let install_path := if install then pathStr asset.path else tempPath
  let install_kuid := if install then asset.kuid else KUID_DUMMY
  let inv1 := ["installfrompath".toList, install_path]
  let inv2 := ["commit".toList, install_kuid]
  let inv3 := ["validate".toList, install_kuid]
  let pre : List LogCall :=
    (.Normal, .Info) ::
      (if install then []
       else (.Verbose, .Info) :: (.Verbose, .Info) :: (stagingLog ++ [(.Verbose, .Info)]))
  match r.install with
  | .error _ => ⟨false, [inv1], pre ++ [(.Normal, .Error), (.Normal, .Error)]⟩
  | .ok _ =>
    match r.commit with
    | .error _ =>
      ⟨false, [inv1, inv2], pre ++ [(.Verbose, .Info), (.Normal, .Error), (.Normal, .Error)]⟩
    | .ok _ =>
      match r.validate with
      | .error _ =>
        ⟨false, [inv1, inv2, inv3],
          pre ++ [(.Verbose, .Info), (.Verbose, .Info), (.Normal, .Error), (.Normal, .Error)]⟩
      | .ok out =>
        let vtr := (log_validation_output label out).map (fun c => (c.1, c.2.1))
        if out.errors = 0 then
          ⟨true, [inv1, inv2, inv3],
            pre ++ [(.Verbose, .Info), (.Verbose, .Info), (.Verbose, .Info)] ++ vtr
              ++ [(.Normal, .Info)]⟩
        else
          ⟨false, [inv1, inv2, inv3],
            pre ++ [(.Verbose, .Info), (.Verbose, .Info), (.Verbose, .Info)] ++ vtr
              ++ [(.Verbose, .Error), (.Normal, .Error)]⟩

/-- The `for asset in &locate_assets(..)` loop of `build`: counts assets and
failures, concatenating invocations and log calls. -/
def buildLoop (install : Bool) (tempPath : List Char)
    (pathStr : List String → List Char) (stagingLog : Nat → List LogCall)
    (labelFn : Asset → List Char) (results : Nat → StageResults) :
    List Asset → Nat → Nat × Nat × List (List (List Char)) × List LogCall
  | [], _ => (0, 0, [], [])
  | a :: rest, i =>
    let run := build_asset install tempPath pathStr (stagingLog i) (labelFn a) a (results i)
    let t := buildLoop install tempPath pathStr stagingLog labelFn results rest (i + 1)
    (t.1 + 1, (if run.success then 0 else 1) + t.2.1, run.invs ++ t.2.2.1, run.trace ++ t.2.2.2)

/-- Outcome of `build`: overall success, the assets processed by the loop,
all TrainzUtil invocations, and all log calls. -/
structure BuildRun where
  success : Bool
  processed : List Asset
  invs : List (List (List Char))
  trace : List LogCall
deriving Repr

/-- `build`: pre-flight `version` call, then the per-asset loop, then the
final report lines.  A failed pre-flight returns immediately.  On a
successful pre-flight the version log line indexes `output.lines[0]`, and
`format_args!` evaluates its arguments eagerly regardless of verbosity, so a
version output whose `lines` vector is empty panics there and aborts the
whole run before anything is located: modelled as `none`. -/
def build (version : ToolResult) (tree : DirTree) (recursive install : Bool)
    (tempPath : List Char) (pathStr : List String → List Char)
    (stagingLog : Nat → List LogCall) (labelFn : Asset → List Char)
    (results : Nat → StageResults) : Option BuildRun :=
  let pre : List LogCall := [(.Verbose, .Info), (.Verbose, .Info)]
  let verInv : List (List Char) := ["version".toList]
  match version with
  | .error _ =>
    some ⟨false, [], [verInv], pre ++ [(.Normal, .Error), (.Silent, .Error)]⟩
  | .ok out =>
    match out.lines with
    | [] => none
    | _ :: _ =>
      let located := locate_assets tree recursive
      let t := buildLoop install tempPath pathStr stagingLog labelFn results located.1 0
      some ⟨t.2.1 == 0, located.1, verInv :: t.2.2.1,
        pre ++ [(.Verbose, .Info)] ++ located.2 ++ t.2.2.2
          ++ [(.Normal, .Info), (.Normal, .Info), (.Normal, .Info), (.Silent, .Info)]⟩

/-! ## Spec-side definitions

These follow the claims' words (not the source) and exist only to be compared
with the source-derived definitions above. -/

/-- Spec-side matcher for C8's grammar `^([-+!;])\s*<(.+?)>\s*:\s*(.+)$`:
anchored at the line start, with a nonempty bracketed capture. -/
def claimDiagLine : List Char → Option (Char × List Char × List Char)
  | [] => none
  | c :: rest =>
    if c = '-' || c = '+' || c = '!' || c = ';' then
      match expectC '<' (spStar rest) with
      | none => none
      | some s =>
        match s with
        | [] => none
        | k :: s2 =>
          if k = '\n' then none
          else (kuidScan s2).map (fun p => (c, k :: p.1, p.2))
    else none

/-- Spec-side summary matcher for C4's grammar
`OK\s*\(\s*(\d+)\s+Errors\s*,\s*(\d+)\s+Warnings\s*\)` tried at one
position: identical to `okTail` except for `\s*` (instead of `\s+`)
between `OK` and the parenthesis. -/
def claimOkTail (s : List Char) : Option ((List Char × List Char) × List Char) :=
  (litCG "OK".toList s).bind fun p1 =>
  (expectC '(' (spStar p1.2)).bind fun s2 =>
  (digitsCG (spStar s2)).bind fun pe =>
  (spPlus pe.2).bind fun s3 =>
  (litCG "Errors".toList s3).bind fun p2 =>
  (expectC ',' (spStar p2.2)).bind fun s4 =>
  (digitsCG (spStar s4)).bind fun pw =>
  (spPlus pw.2).bind fun s5 =>
  (litCG "Warnings".toList s5).bind fun p3 =>
  (expectC ')' (spStar p3.2)).map fun s6 => ((pe.1, pw.1), s6)

/-- Unanchored leftmost search with `claimOkTail`. -/
def claimSummaryCaptures : List Char → Option ((List Char × List Char) × List Char)
  | [] => none
  | c :: rest => claimOkTail (c :: rest) <|> claimSummaryCaptures rest

/-- The canonical well-formed summary line `OK (e Errors, w Warnings)`. -/
def okLine (es ws : List Char) : List Char :=
  "OK (".toList ++ (es ++ (" Errors, ".toList ++ (ws ++ " Warnings)".toList)))

/-! ## C1: per-asset success condition -/

/-- C1: `build_asset` records success exactly when all three tool invocations
(installfrompath, commit, validate) return `Ok` and the validate invocation's
parsed error count is zero; a nonzero error count fails the asset even though
the invocation returned `Ok`. -/
theorem build_asset_success_iff (install : Bool) (tempPath : List Char)
    (pathStr : List String → List Char) (stagingLog : List LogCall)
    (label : List Char) (asset : Asset) (r : StageResults) :
    (build_asset install tempPath pathStr stagingLog label asset r).success =
      (match r.install, r.commit, r.validate with
       | .ok _, .ok _, .ok out => out.errors == 0
       | _, _, _ => false) := by
  rcases r with ⟨i, c, v⟩
  cases i <;> cases c <;> cases v <;> simp only [build_asset]
  split <;> simp_all

/-! ## C6: failed pre-flight aborts the run with no assets processed -/

/-- C6: `build` first invokes the tool with the single argument `version`;
if that fails it returns failure immediately: no asset is located or
processed, no further invocation is made, and only the two fatal error lines
are logged. -/
theorem build_preflight_failure (e : ToolError) (tree : DirTree)
    (recursive install : Bool) (tempPath : List Char)
    (pathStr : List String → List Char) (stagingLog : Nat → List LogCall)
    (labelFn : Asset → List Char) (results : Nat → StageResults) :
    build (.error e) tree recursive install tempPath pathStr stagingLog labelFn results =
      some ⟨false, [], [["version".toList]],
        [(.Verbose, .Info), (.Verbose, .Info), (.Normal, .Error), (.Silent, .Error)]⟩ := rfl

/-! ## C10: a config.txt without an identity match blocks the subtree -/

/-- C10: a directory whose `config.txt` exists but contains no line matching
the identity pattern produces no descriptor and is never descended into, even
with `recursive` set, so nothing below it can be discovered. -/
theorem locate_config_without_kuid (contents : List Char)
    (subs : List (String × DirTree)) (path : List String) (recursive : Bool)
    (h : kuidFind contents = none) :
    (locateGo (.node (some contents) subs) path recursive).1 = [] := by
  simp [locateGo, h]

/-- Witness for C10: a kuid-less config.txt hides a valid nested asset. -/
theorem locate_config_without_kuid_witness :
    kuidFind "username \x22Name only\x22\n".toList = none ∧
    (locateGo
        (.node (some "username \x22Name only\x22\n".toList)
          [("sub", .node (some "kuid <kuid:1:2>".toList) [])])
        [] true).1 = [] :=
  ⟨by decide,
    locate_config_without_kuid "username \x22Name only\x22\n".toList
      [("sub", .node (some "kuid <kuid:1:2>".toList) [])] [] true (by decide)⟩

/-! ## C8: diagnostic-line classification -/

/-- Counterexample for C8: the program's diagnostic matcher is not anchored
at the line start, so the line `xx- <a> : b` is classified (routed to Error
and flattened into a silent record) although the claim's anchored grammar
does not match it. -/
theorem diag_not_anchored_counterexample :
    log_validation_output "L".toList ⟨["xx- <a> : b".toList], 0, 0⟩ =
      [(.Normal, .Error, "b".toList), (.Silent, .Error, "- L : b".toList)] ∧
    claimDiagLine "xx- <a> : b".toList = none := by decide

/-- Lemma: a successful diagnostic capture's prefix is one of `-+!;`. -/
theorem diagCaptures_tag (line : List Char) (p : Char) (k msg : List Char)
    (h : diagCaptures line = some (p, k, msg)) :
    p = '-' ∨ p = '!' ∨ p = '+' ∨ p = ';' := by
  induction line with
  | nil => simp [diagCaptures] at h
  | cons c rest ih =>
    rw [diagCaptures] at h
    rcases ho : diagHere (c :: rest) with _ | q
    · rw [ho] at h
      simp only [Option.none_orElse] at h
      exact ih h
    · rw [ho] at h
      simp only [Option.some_orElse] at h
      rw [diagHere] at ho
      by_cases hc : (c = '-' || c = '+' || c = '!' || c = ';') = true
      · rw [if_pos hc] at ho
        have hp : p = c := by
          rcases hm : expectC '<' (spStar rest) with _ | s
          · rw [hm] at ho; simp at ho
          · rw [hm] at ho
            rcases hk : kuidScan s with _ | q2
            · simp [hk] at ho
            · simp [hk] at ho
              rw [← ho] at h
              simp at h
              exact h.1.symm
        subst hp
        simp only [Bool.or_eq_true, beq_iff_eq, decide_eq_true_eq] at hc
        tauto
      · rw [if_neg hc] at ho
        exact absurd ho (by simp)

/-- C8 (amended): during classification of validation output, a line is
classified if and only if the unanchored leftmost search of the grammar
`([-+!;])\s*<(.*?)>\s*:\s*(.+)\r?$` succeeds somewhere in the line (the
bracketed capture may be empty); the prefix routes `-` to Normal-tier Error,
`!` to Normal-tier Warning, `+` to Normal-tier Info, `;` to Verbose-tier
Info; every matched line is additionally emitted as a flattened silent-tier
record `{prefix} {asset-label} : {message}`, and non-matching lines produce
nothing. -/
theorem log_validation_classification (asset : List Char) (output : Output) :
    (log_validation_output asset output =
      output.lines.flatMap (fun line =>
        match diagCaptures line with
        | none => []
        | some (p, _, msg) =>
          [(tierOfTag p, sevOfTag p, msg),
            (.Silent, sevOfTag p, flatRecord p asset msg)])) ∧
    ∀ line p k msg, diagCaptures line = some (p, k, msg) →
      (p = '-' ∧ tierOfTag p = .Normal ∧ sevOfTag p = .Error) ∨
      (p = '!' ∧ tierOfTag p = .Normal ∧ sevOfTag p = .Warn) ∨
      (p = '+' ∧ tierOfTag p = .Normal ∧ sevOfTag p = .Info) ∨
      (p = ';' ∧ tierOfTag p = .Verbose ∧ sevOfTag p = .Info) := by
  constructor
  · rfl
  · intro line p k msg h
    rcases diagCaptures_tag line p k msg h with rfl | rfl | rfl | rfl
    · exact Or.inl ⟨rfl, by decide, by decide⟩
    · exact Or.inr (Or.inl ⟨rfl, by decide, by decide⟩)
    · exact Or.inr (Or.inr (Or.inl ⟨rfl, by decide, by decide⟩))
    · exact Or.inr (Or.inr (Or.inr ⟨rfl, by decide, by decide⟩))

/-- Witness for C8's amended theorem at a concrete validation output. -/
theorem log_validation_classification_witness :
    log_validation_output "A".toList ⟨["- <k> : m".toList, "plain".toList], 0, 0⟩ =
      [(.Normal, .Error, "m".toList), (.Silent, .Error, "- A : m".toList)] ∧
    ((('-' : Char) = '-' ∧ tierOfTag '-' = .Normal ∧ sevOfTag '-' = .Error) ∨
      ('-' = '!' ∧ tierOfTag '-' = .Normal ∧ sevOfTag '-' = .Warn) ∨
      ('-' = '+' ∧ tierOfTag '-' = .Normal ∧ sevOfTag '-' = .Info) ∨
      ('-' = ';' ∧ tierOfTag '-' = .Verbose ∧ sevOfTag '-' = .Info)) :=
  ⟨by
    rw [(log_validation_classification "A".toList
        ⟨["- <k> : m".toList, "plain".toList], 0, 0⟩).1]
    decide,
    (log_validation_classification "A".toList
        ⟨["- <k> : m".toList, "plain".toList], 0, 0⟩).2
      "- <k> : m".toList '-' "k".toList "m".toList (by decide)⟩

/-! ## C7: logger counters and the exit code -/

/-- Counterexample for C7: two completed runs (the version output has the
line `V` before its summary, so the pre-flight succeeds and its echo does
not panic) whose logger statistics agree (two errors, no warnings) but whose
success flags (hence exit codes) differ, so the exit code is not determined
by the logger counters.  In run A the two Error-severity calls come from a
`-` diagnostic line of a validation that reported zero errors, so the asset
(and the run) succeeds. -/
theorem exit_code_not_from_counters_counterexample :
    (build (.ok ⟨["V".toList], 0, 0⟩) (.node (some "kuid <kuid:1:2>\n".toList) [])
        false true [] (fun _ => []) (fun _ => []) (fun _ => [])
        (fun _ => ⟨.ok ⟨[], 0, 0⟩, .ok ⟨[], 0, 0⟩,
          .ok ⟨["- <k> : m".toList], 0, 0⟩⟩)).map
        (fun b => (runTrace ⟨.Normal, 0, 0⟩ b.trace).stats) =
      (build (.ok ⟨["V".toList], 0, 0⟩) (.node (some "kuid <kuid:1:2>\n".toList) [])
        false true [] (fun _ => []) (fun _ => []) (fun _ => [])
        (fun _ => ⟨.error .NotFound, .ok ⟨[], 0, 0⟩,
          .ok ⟨[], 0, 0⟩⟩)).map
        (fun b => (runTrace ⟨.Normal, 0, 0⟩ b.trace).stats) ∧
    (build (.ok ⟨["V".toList], 0, 0⟩) (.node (some "kuid <kuid:1:2>\n".toList) [])
        false true [] (fun _ => []) (fun _ => []) (fun _ => [])
        (fun _ => ⟨.ok ⟨[], 0, 0⟩, .ok ⟨[], 0, 0⟩,
          .ok ⟨["- <k> : m".toList], 0, 0⟩⟩)).map (fun b => b.success) =
      some true ∧
    (build (.ok ⟨["V".toList], 0, 0⟩) (.node (some "kuid <kuid:1:2>\n".toList) [])
        false true [] (fun _ => []) (fun _ => []) (fun _ => [])
        (fun _ => ⟨.error .NotFound, .ok ⟨[], 0, 0⟩,
          .ok ⟨[], 0, 0⟩⟩)).map (fun b => b.success) = some false := by decide

/-- C7 (amended): every log call of Error or Warning severity increments the
corresponding process-wide counter, regardless of the active mode and of
whether the call is printed; when the run completes (failed pre-flight, or
successful pre-flight whose output has a line to echo), the process exit
code is `0` exactly when the pre-flight succeeded and no asset failed — it
is derived from the per-asset failure count and is independent of the
verbosity mode, but it is not a function of the logger counters.  A
successful pre-flight whose output has no line before the summary aborts in
the version echo instead. -/
theorem log_counters_and_exit_code (lg : Logger) (mode : Mode) (sev : Severity)
    (version : ToolResult) (tree : DirTree) (recursive install : Bool)
    (tempPath : List Char) (pathStr : List String → List Char)
    (stagingLog : Nat → List LogCall) (labelFn : Asset → List Char)
    (results : Nat → StageResults) :
    ((log lg mode sev).1.stats.errors =
        lg.stats.errors + (if sev = .Error then 1 else 0) ∧
      (log lg mode sev).1.stats.warnings =
        lg.stats.warnings + (if sev = .Warn then 1 else 0)) ∧
    (build version tree recursive install tempPath pathStr stagingLog labelFn
        results).map (fun b => b.success) =
      (match version with
       | .error _ => some false
       | .ok out =>
         match out.lines with
         | [] => none
         | _ :: _ =>
           some ((buildLoop install tempPath pathStr stagingLog labelFn results
             (locate_assets tree recursive).1 0).2.1 == 0)) := by
  refine ⟨⟨?_, ?_⟩, ?_⟩
  · cases sev <;> simp [log]
  · cases sev <;> simp [log]
  · cases version with
    | error e => simp [build]
    | ok out =>
      rcases out with ⟨ls, oe, ow⟩
      cases ls <;> simp [build]

/-! ## C2: batch policy (no early termination, short-circuit per asset) -/

/-- Specification vocabulary: the per-asset runs the loop performs, with
their stage-result index. -/
def assetRuns (install : Bool) (tempPath : List Char)
    (pathStr : List String → List Char) (stagingLog : Nat → List LogCall)
    (labelFn : Asset → List Char) (results : Nat → StageResults) :
    List Asset → Nat → List AssetRun
  | [], _ => []
  | a :: rest, i =>
    build_asset install tempPath pathStr (stagingLog i) (labelFn a) a (results i) ::
      assetRuns install tempPath pathStr stagingLog labelFn results rest (i + 1)

/-- The loop visits every asset: its counters and outputs are those of the
per-asset runs, in order. -/
theorem buildLoop_characterization (install : Bool) (tempPath : List Char)
    (pathStr : List String → List Char) (stagingLog : Nat → List LogCall)
    (labelFn : Asset → List Char) (results : Nat → StageResults)
    (assets : List Asset) (i : Nat) :
    buildLoop install tempPath pathStr stagingLog labelFn results assets i =
      (assets.length,
        (assetRuns install tempPath pathStr stagingLog labelFn results assets i).countP
          (fun r => !r.success),
        (assetRuns install tempPath pathStr stagingLog labelFn results assets i).flatMap
          (fun r => r.invs),
        (assetRuns install tempPath pathStr stagingLog labelFn results assets i).flatMap
          (fun r => r.trace)) := by
  induction assets generalizing i with
  | nil => rfl
  | cons a rest ih =>
    simp only [buildLoop, assetRuns, ih, List.length_cons, List.countP_cons,
      List.flatMap_cons, Prod.mk.injEq, true_and, and_true]
    rcases h : (build_asset install tempPath pathStr (stagingLog i) (labelFn a) a
        (results i)).success <;> simp [h, Nat.add_comm]

/-- C2: with a successful pre-flight (whose output has a line to echo, so
the version log does not panic), the orchestrator processes every located
asset in order (one run per asset, no early batch termination), the final
success flag is exactly "no asset failed", the invocations are the
pre-flight followed by each asset's invocations in order, and within one
asset a stage failure short-circuits the remaining stages' invocations. -/
theorem build_batch_policy (v0 : List Char) (vrest : List (List Char))
    (ve vw : Nat) (tree : DirTree)
    (recursive install : Bool) (tempPath : List Char)
    (pathStr : List String → List Char) (stagingLog : Nat → List LogCall)
    (labelFn : Asset → List Char) (results : Nat → StageResults) :
    ((build (.ok ⟨v0 :: vrest, ve, vw⟩) tree recursive install tempPath pathStr
        stagingLog labelFn results).map (fun b => b.processed) =
        some (locate_assets tree recursive).1 ∧
      (build (.ok ⟨v0 :: vrest, ve, vw⟩) tree recursive install tempPath pathStr
        stagingLog labelFn results).map (fun b => b.invs) =
        some (["version".toList] ::
          (assetRuns install tempPath pathStr stagingLog labelFn results
            (locate_assets tree recursive).1 0).flatMap (fun r => r.invs)) ∧
      (build (.ok ⟨v0 :: vrest, ve, vw⟩) tree recursive install tempPath pathStr
        stagingLog labelFn results).map (fun b => b.success) =
        some ((assetRuns install tempPath pathStr stagingLog labelFn results
            (locate_assets tree recursive).1 0).countP
          (fun r => !r.success) == 0)) ∧
    ∀ (install2 : Bool) (tempPath2 : List Char)
      (pathStr2 : List String → List Char) (stagingLog2 : List LogCall)
      (label2 : List Char) (asset2 : Asset) (r2 : StageResults),
      (build_asset install2 tempPath2 pathStr2 stagingLog2 label2 asset2 r2).invs =
        ["installfrompath".toList,
            if install2 then pathStr2 asset2.path else tempPath2] ::
          (match r2.install with
           | .error _ => []
           | .ok _ =>
             ["commit".toList, if install2 then asset2.kuid else KUID_DUMMY] ::
               (match r2.commit with
                | .error _ => []
                | .ok _ =>
                  [["validate".toList,
                      if install2 then asset2.kuid else KUID_DUMMY]])) := by
  constructor
  · simp [build, buildLoop_characterization]
  · intro install2 tempPath2 pathStr2 stagingLog2 label2 asset2 r2
    rcases r2 with ⟨i2, c2, v2⟩
    cases i2 <;> cases c2 <;> cases v2 <;> simp only [build_asset]
    all_goals split <;> rfl

/-! ## C5: discovery never yields nested asset roots

A real directory listing never repeats a name, so the invariant is proved
for trees whose sibling names are distinct at every level. -/

def nodupNames : List String → Bool
  | [] => true
  | n :: rest => !(decide (n ∈ rest)) && nodupNames rest

mutual

def wfTree : DirTree → Bool
  | .node _ subs => nodupNames (subs.map Prod.fst) && wfSubs subs

def wfSubs : List (String × DirTree) → Bool
  | [] => true
  | (_, d) :: rest => wfTree d && wfSubs rest

end

/-- Cancellation of a common prefix on both sides of `<+:`. -/
theorem prefix_append_cancel {α : Type} (l s t : List α) :
    l ++ s <+: l ++ t ↔ s <+: t := by
  induction l with
  | nil => simp
  | cons c cs ih => simp [List.cons_prefix_cons, ih]

mutual

/-- Every asset located below a directory has that directory's path as a
prefix of its root path. -/
theorem locateGo_path (t : DirTree) (path : List String) (recursive : Bool) :
    ∀ a ∈ (locateGo t path recursive).1, path <+: a.path := by
  rcases t with ⟨cfg, subs⟩
  rcases cfg with _ | contents
  · by_cases hr : recursive
    · intro a ha
      simp only [locateGo, hr, if_true] at ha
      obtain ⟨n, _, hp⟩ := locateSubs_path subs path a ha
      exact ((path.prefix_append [n]).trans hp)
    · intro a ha
      simp [locateGo, hr] at ha
  · rcases hk : kuidFind contents with _ | kuid
    · intro a ha
      simp [locateGo, hk] at ha
    · intro a ha
      simp only [locateGo, hk, List.mem_singleton] at ha
      subst ha
      exact List.prefix_refl path

/-- Every asset located under a sibling list comes from one of the sibling
names, which starts the extension of its root path. -/
theorem locateSubs_path (subs : List (String × DirTree)) (path : List String) :
    ∀ a ∈ (locateSubs subs path).1,
      ∃ n, n ∈ subs.map Prod.fst ∧ path ++ [n] <+: a.path := by
  match subs with
  | [] => intro a ha; simp [locateSubs] at ha
  | (n, d) :: rest =>
    intro a ha
    by_cases hknown : n ∈ KNOWN_DIRS
    · simp [locateSubs, hknown] at ha
      obtain ⟨m, hm, hp⟩ := locateSubs_path rest path a ha
      exact ⟨m, by simp [hm], hp⟩
    · simp [locateSubs, hknown] at ha
      rcases ha with ha | ha
      · refine ⟨n, by simp, ?_⟩
        exact locateGo_path d (path ++ [n]) true a ha
      · obtain ⟨m, hm, hp⟩ := locateSubs_path rest path a ha
        exact ⟨m, by simp [hm], hp⟩

end

/-- The non-ancestry relation required between two located assets. -/
def NoNest (a b : Asset) : Prop := ¬ a.path <+: b.path ∧ ¬ b.path <+: a.path

mutual

/-- Located assets of a well-formed tree are pairwise non-nested. -/
theorem locateGo_pairwise (t : DirTree) (path : List String) (recursive : Bool)
    (h : wfTree t = true) :
    (locateGo t path recursive).1.Pairwise NoNest := by
  rcases t with ⟨cfg, subs⟩
  have hsub : nodupNames (subs.map Prod.fst) = true ∧ wfSubs subs = true := by
    simpa [wfTree, Bool.and_eq_true] using h
  rcases cfg with _ | contents
  · by_cases hr : recursive
    · simpa only [locateGo, hr, if_true] using
        locateSubs_pairwise subs path hsub.1 hsub.2
    · simp [locateGo, hr]
  · rcases hk : kuidFind contents with _ | kuid
    · simp [locateGo, hk]
    · simp [locateGo, hk]

theorem locateSubs_pairwise (subs : List (String × DirTree)) (path : List String)
    (h1 : nodupNames (subs.map Prod.fst) = true) (h2 : wfSubs subs = true) :
    (locateSubs subs path).1.Pairwise NoNest := by
  match subs with
  | [] => simp [locateSubs]
  | (n, d) :: rest =>
    have h1s : ¬ n ∈ rest.map Prod.fst ∧ nodupNames (rest.map Prod.fst) = true := by
      simpa only [List.map_cons, nodupNames, Bool.and_eq_true, Bool.not_eq_true',
        decide_eq_false_iff_not] using h1
    have hn : ¬ n ∈ rest.map Prod.fst := h1s.1
    have h1' : nodupNames (rest.map Prod.fst) = true := h1s.2
    have h2' : wfTree d = true ∧ wfSubs rest = true := by
      simpa [wfSubs, Bool.and_eq_true] using h2
    by_cases hknown : n ∈ KNOWN_DIRS
    · simpa [locateSubs, hknown] using
        locateSubs_pairwise rest path h1' h2'.2
    · simp [locateSubs, hknown]
      rw [List.pairwise_append]
      refine ⟨locateGo_pairwise d (path ++ [n]) true h2'.1,
        locateSubs_pairwise rest path h1' h2'.2, ?_⟩
      intro a ha b hb
      obtain ⟨ea, hea⟩ := locateGo_path d (path ++ [n]) true a ha
      obtain ⟨m, hm, em, hem⟩ := locateSubs_path rest path b hb
      have hnm : n ≠ m := by
        intro hEq
        subst hEq
        exact hn hm
      constructor
      · intro hab
        rw [← hea, ← hem] at hab
        have : n :: ea <+: m :: em := by
          have := (prefix_append_cancel path (n :: ea) (m :: em)).1 (by
            simpa [List.append_assoc] using hab)
          exact this
        exact hnm ((List.cons_prefix_cons.1 this).1)
      · intro hba
        rw [← hea, ← hem] at hba
        have : m :: em <+: n :: ea := by
          have := (prefix_append_cancel path (m :: em) (n :: ea)).1 (by
            simpa [List.append_assoc] using hba)
          exact this
        exact hnm ((List.cons_prefix_cons.1 this).1).symm

end

/-- C5: for a well-formed directory tree and any recursive flag, no two
located descriptors have root paths in an ancestor/descendant (prefix)
relation; and a directory whose `config.txt` matches the identity pattern
yields exactly one descriptor (its own) and none from its subtree. -/
theorem locate_no_nested_descriptors (tree : DirTree) (path : List String)
    (recursive : Bool) (h : wfTree tree = true) :
    (locateGo tree path recursive).1.Pairwise NoNest ∧
    (∀ contents subs kuid, tree = .node (some contents) subs →
      kuidFind contents = some kuid →
      (locateGo tree path recursive).1 =
        [⟨assetName contents kuid, kuid, path⟩]) := by
  refine ⟨locateGo_pairwise tree path recursive h, ?_⟩
  intro contents subs kuid ht hk
  subst ht
  simp [locateGo, hk]

/-- Witness for C5: a concrete tree with an asset root that contains a
nested marker file; only the outer root is reported. -/
theorem locate_no_nested_descriptors_witness :
    wfTree (.node none
      [("a", .node (some "kuid <kuid:1:2>\n".toList)
          [("inner", .node (some "kuid <kuid:7:8>\n".toList) [])]),
       ("b", .node none [])]) = true ∧
    (locateGo (.node none
      [("a", .node (some "kuid <kuid:1:2>\n".toList)
          [("inner", .node (some "kuid <kuid:7:8>\n".toList) [])]),
       ("b", .node none [])]) [] true).1.Pairwise NoNest :=
  ⟨by decide,
    (locate_no_nested_descriptors (.node none
      [("a", .node (some "kuid <kuid:1:2>\n".toList)
          [("inner", .node (some "kuid <kuid:7:8>\n".toList) [])]),
       ("b", .node none [])]) [] true (by decide)).1⟩

/-! ## Scanner components are stable under appending to the input

When a component succeeds and its stop was caused by a character of the
input (not by running off the end), appending more text changes nothing but
the returned remainder. -/

theorem dropWhile_append_ne (p : Char → Bool) (s t : List Char)
    (h : s.dropWhile p ≠ []) : (s ++ t).dropWhile p = s.dropWhile p ++ t := by
  induction s with
  | nil => simp at h
  | cons c s ih =>
    by_cases hc : p c
    · rw [List.cons_append, List.dropWhile_cons_of_pos hc,
        List.dropWhile_cons_of_pos hc]
      exact ih (by simpa [List.dropWhile_cons_of_pos hc] using h)
    · rw [List.cons_append, List.dropWhile_cons_of_neg hc,
        List.dropWhile_cons_of_neg hc, List.cons_append]

theorem takeWhile_append_ne (p : Char → Bool) (s t : List Char)
    (h : s.dropWhile p ≠ []) : (s ++ t).takeWhile p = s.takeWhile p := by
  induction s with
  | nil => simp at h
  | cons c s ih =>
    by_cases hc : p c
    · rw [List.cons_append, List.takeWhile_cons_of_pos hc,
        List.takeWhile_cons_of_pos hc,
        ih (by simpa [List.dropWhile_cons_of_pos hc] using h)]
    · rw [List.cons_append, List.takeWhile_cons_of_neg hc,
        List.takeWhile_cons_of_neg hc]

theorem litCG_append (w s t : List Char) (v r : List Char)
    (h : litCG w s = some (v, r)) : litCG w (s ++ t) = some (v, r ++ t) := by
  induction w generalizing s v with
  | nil =>
    simp only [litCG, Option.some.injEq, Prod.mk.injEq] at h
    simp [litCG, h.1, h.2]
  | cons c w ih =>
    cases s with
    | nil => simp [litCG] at h
    | cons d s2 =>
      rw [litCG] at h
      by_cases hc : ciEq d c
      · rw [if_pos hc] at h
        rcases h2 : litCG w s2 with _ | p2
        · rw [h2] at h; simp at h
        · rw [h2] at h
          simp only [Option.map_some', Option.some.injEq, Prod.mk.injEq] at h
          rw [List.cons_append, litCG, if_pos hc,
            ih s2 p2.1 (by rw [h2, ← h.2])]
          simp [h.1]
      · rw [if_neg hc] at h; simp at h

theorem expectC_append (c : Char) (s t r : List Char)
    (h : expectC c s = some r) : expectC c (s ++ t) = some (r ++ t) := by
  cases s with
  | nil => simp [expectC] at h
  | cons d s2 =>
    rw [expectC] at h
    by_cases hd : d = c
    · rw [if_pos hd] at h
      rw [List.cons_append, expectC, if_pos hd]
      simp only [Option.some.injEq] at h ⊢
      rw [← h]
    · rw [if_neg hd] at h; simp at h

theorem expectC_input_ne_nil (c : Char) (s r : List Char)
    (h : expectC c s = some r) : s ≠ [] := by
  cases s <;> simp [expectC] at h ⊢

theorem spPlus_input_ne_nil (s r : List Char) (h : spPlus s = some r) : s ≠ [] := by
  cases s <;> simp [spPlus] at h ⊢

theorem litCG_input_ne_nil (c : Char) (w s : List Char)
    (p : List Char × List Char) (h : litCG (c :: w) s = some p) : s ≠ [] := by
  cases s <;> simp [litCG] at h ⊢

theorem digitsCG_input_ne_nil (s : List Char) (p : List Char × List Char)
    (h : digitsCG s = some p) : s ≠ [] := by
  cases s <;> simp [digitsCG] at h ⊢

theorem spPlus_append (s t r : List Char) (h : spPlus s = some r) (hr : r ≠ []) :
    spPlus (s ++ t) = some (r ++ t) := by
  cases s with
  | nil => simp [spPlus] at h
  | cons c s2 =>
    rw [spPlus] at h
    by_cases hc : isSpaceCh c
    · rw [if_pos hc] at h
      simp only [Option.some.injEq] at h
      rw [List.cons_append, spPlus, if_pos hc, ← h]
      rw [dropWhile_append_ne isSpaceCh s2 t (by rw [h]; exact hr)]
    · rw [if_neg hc] at h; simp at h

theorem spStar_append (s t : List Char) (h : spStar s ≠ []) :
    spStar (s ++ t) = spStar s ++ t :=
  dropWhile_append_ne isSpaceCh s t h

theorem digitsCG_append (s t ds r : List Char)
    (h : digitsCG s = some (ds, r)) (hr : r ≠ []) :
    digitsCG (s ++ t) = some (ds, r ++ t) := by
  rw [digitsCG] at h
  by_cases he : (s.takeWhile isDigitCh).isEmpty
  · rw [if_pos he] at h; simp at h
  · rw [if_neg he] at h
    simp only [Option.some.injEq, Prod.mk.injEq] at h
    have hd : s.dropWhile isDigitCh ≠ [] := by rw [h.2]; exact hr
    rw [digitsCG, takeWhile_append_ne isDigitCh s t hd, if_neg he,
      dropWhile_append_ne isDigitCh s t hd, h.1, h.2]

/-- Appending to the input of a successful `okTail` run only extends the
final remainder. -/
theorem okTail_append (s t : List Char) (caps : List Char × List Char)
    (r : List Char) (h : okTail s = some (caps, r)) :
    okTail (s ++ t) = some (caps, r ++ t) := by
  rw [okTail] at h
  rcases h1 : litCG "OK".toList s with _ | p1 <;> rw [h1] at h
  · simp at h
  rw [Option.some_bind] at h
  rcases h2 : spPlus p1.2 with _ | s1 <;> rw [h2] at h
  · simp at h
  rw [Option.some_bind] at h
  rcases h3 : expectC '(' s1 with _ | s2 <;> rw [h3] at h
  · simp at h
  rw [Option.some_bind] at h
  rcases h4 : digitsCG (spStar s2) with _ | pe <;> rw [h4] at h
  · simp at h
  rw [Option.some_bind] at h
  rcases h5 : spPlus pe.2 with _ | s3 <;> rw [h5] at h
  · simp at h
  rw [Option.some_bind] at h
  rcases h6 : litCG "Errors".toList s3 with _ | p2 <;> rw [h6] at h
  · simp at h
  rw [Option.some_bind] at h
  rcases h7 : expectC ',' (spStar p2.2) with _ | s4 <;> rw [h7] at h
  · simp at h
  rw [Option.some_bind] at h
  rcases h8 : digitsCG (spStar s4) with _ | pw <;> rw [h8] at h
  · simp at h
  rw [Option.some_bind] at h
  rcases h9 : spPlus pw.2 with _ | s5 <;> rw [h9] at h
  · simp at h
  rw [Option.some_bind] at h
  rcases h10 : litCG "Warnings".toList s5 with _ | p3 <;> rw [h10] at h
  · simp at h
  rw [Option.some_bind] at h
  rcases h11 : expectC ')' (spStar p3.2) with _ | s6 <;> rw [h11] at h
  · simp at h
  simp only [Option.map_some', Option.some.injEq, Prod.mk.injEq] at h
  have e2 : spPlus (p1.2 ++ t) = some (s1 ++ t) :=
    spPlus_append p1.2 t s1 h2 (expectC_input_ne_nil '(' s1 s2 h3)
  have e4 : spStar (s2 ++ t) = spStar s2 ++ t :=
    spStar_append s2 t (digitsCG_input_ne_nil (spStar s2) pe h4)
  have e5 : digitsCG (spStar s2 ++ t) = some (pe.1, pe.2 ++ t) :=
    digitsCG_append (spStar s2) t pe.1 pe.2 (by simpa using h4)
      (spPlus_input_ne_nil pe.2 s3 h5)
  have e6 : spPlus (pe.2 ++ t) = some (s3 ++ t) :=
    spPlus_append pe.2 t s3 h5 (litCG_input_ne_nil 'E' _ s3 p2 h6)
  have e7 : litCG "Errors".toList (s3 ++ t) = some (p2.1, p2.2 ++ t) :=
    litCG_append _ s3 t p2.1 p2.2 (by simpa using h6)
  have e8 : spStar (p2.2 ++ t) = spStar p2.2 ++ t :=
    spStar_append p2.2 t (expectC_input_ne_nil ',' _ s4 h7)
  have e9 : expectC ',' (spStar p2.2 ++ t) = some (s4 ++ t) :=
    expectC_append ',' (spStar p2.2) t s4 h7
  have e10 : spStar (s4 ++ t) = spStar s4 ++ t :=
    spStar_append s4 t (digitsCG_input_ne_nil (spStar s4) pw h8)
  have e11 : digitsCG (spStar s4 ++ t) = some (pw.1, pw.2 ++ t) :=
    digitsCG_append (spStar s4) t pw.1 pw.2 (by simpa using h8)
      (spPlus_input_ne_nil pw.2 s5 h9)
  have e12 : spPlus (pw.2 ++ t) = some (s5 ++ t) :=
    spPlus_append pw.2 t s5 h9 (litCG_input_ne_nil 'W' _ s5 p3 h10)
  have e13 : litCG "Warnings".toList (s5 ++ t) = some (p3.1, p3.2 ++ t) :=
    litCG_append _ s5 t p3.1 p3.2 (by simpa using h10)
  have e14 : spStar (p3.2 ++ t) = spStar p3.2 ++ t :=
    spStar_append p3.2 t (expectC_input_ne_nil ')' _ s6 h11)
  have e15 : expectC ')' (spStar p3.2 ++ t) = some (s6 ++ t) :=
    expectC_append ')' (spStar p3.2) t s6 h11
  rw [okTail, litCG_append _ s t p1.1 p1.2 (by simpa using h1), Option.some_bind,
    e2, Option.some_bind, expectC_append '(' s1 t s2 h3, Option.some_bind, e4,
    e5, Option.some_bind, e6, Option.some_bind, e7, Option.some_bind, e8, e9,
    Option.some_bind, e10, e11, Option.some_bind, e12, Option.some_bind, e13,
    Option.some_bind, e14, e15]
  simp [h.1, h.2]

/-- Whatever the source matcher accepts, the claim's grammar (with `\s*`
between `OK` and the parenthesis) accepts identically. -/
theorem okTail_claim (s : List Char) (caps : List Char × List Char)
    (r : List Char) (h : okTail s = some (caps, r)) :
    claimOkTail s = some (caps, r) := by
  rw [okTail] at h
  rcases h1 : litCG "OK".toList s with _ | p1 <;> rw [h1] at h
  · simp at h
  rw [Option.some_bind] at h
  rcases h2 : spPlus p1.2 with _ | s1 <;> rw [h2] at h
  · simp at h
  rw [Option.some_bind] at h
  have hstar : spStar p1.2 = s1 := by
    rcases p1 with ⟨v1, r1⟩
    cases r1 with
    | nil => simp [spPlus] at h2
    | cons c r2 =>
      rw [spPlus] at h2
      by_cases hc : isSpaceCh c
      · rw [if_pos hc] at h2
        simp only [Option.some.injEq] at h2
        simp [spStar, List.dropWhile_cons_of_pos hc, h2]
      · rw [if_neg hc] at h2; simp at h2
  rw [claimOkTail, h1, Option.some_bind, hstar]
  exact h

/-- Leftmost search is monotone from the source grammar to the claim
grammar, even after appending further text. -/
theorem resultCaptures_claim_append (s t : List Char)
    (q : (List Char × List Char) × List Char)
    (h : resultCaptures s = some q) :
    ∃ q2, claimSummaryCaptures (s ++ t) = some q2 := by
  induction s with
  | nil => simp [resultCaptures] at h
  | cons c rest ih =>
    rw [resultCaptures] at h
    rcases h1 : okTail (c :: rest) with _ | p
    · rw [h1, Option.none_orElse] at h
      obtain ⟨q2, hq⟩ := ih h
      rcases h2 : claimOkTail (c :: (rest ++ t)) with _ | p2
      · exact ⟨q2, by rw [List.cons_append, claimSummaryCaptures, h2,
          Option.none_orElse, hq]⟩
      · exact ⟨p2, by rw [List.cons_append, claimSummaryCaptures, h2,
          Option.some_orElse]⟩
    · have ha := okTail_append (c :: rest) t p.1 p.2 (by simpa using h1)
      have hc := okTail_claim ((c :: rest) ++ t) p.1 (p.2 ++ t) ha
      refine ⟨(p.1, p.2 ++ t), ?_⟩
      rw [List.cons_append, claimSummaryCaptures, ← List.cons_append, hc,
        Option.some_orElse]

/-! ## Relating raw stream lines to the normalized lines -/

theorem splitNl_ne_nil (s : List Char) : splitNl s ≠ [] := by
  cases s with
  | nil => simp [splitNl]
  | cons c rest =>
    rw [splitNl]
    split
    · simp
    · rcases h : splitNl rest with _ | ⟨l, ls⟩ <;> simp

/-- Normalisation only removes trailing characters. -/
theorem stripCR_extend (l : List Char) : ∃ e, l = stripCR l ++ e := by
  rw [stripCR]
  split
  · rename_i h
    have hne : l ≠ [] := by
      intro h0
      rw [h0] at h
      simp at h
    refine ⟨['\r'], ?_⟩
    have h2 : l.getLast hne = '\r' := by
      rw [List.getLast?_eq_getLast l hne] at h
      exact Option.some.inj h
    rw [← h2]
    exact (List.dropLast_append_getLast hne).symm
  · exact ⟨[], by simp⟩

/-- Either the stream has no lines at all, or the last normalized line (as
parsed by `from_stdout`) is a prefix of the last raw line. -/
theorem raw_vs_processed (stdout : List Char) :
    (rawLines stdout = [] ∧ (ioLines stdout).map stripCR = []) ∨
    (∃ lraw lproc ext, (rawLines stdout).getLast? = some lraw ∧
      ((ioLines stdout).map stripCR).getLast? = some lproc ∧
      lraw = lproc ++ ext) := by
  rcases hlast : (splitNl stdout).getLast? with _ | last
  · exact absurd (List.getLast?_eq_none_iff.1 hlast) (splitNl_ne_nil stdout)
  cases last with
  | nil =>
    rcases hdl : (splitNl stdout).dropLast with _ | ⟨l0, ls0⟩
    · left
      constructor
      · simp [rawLines, hlast, hdl]
      · simp [ioLines, hlast, hdl]
    · right
      have hdne : (splitNl stdout).dropLast ≠ [] := by rw [hdl]; simp
      obtain ⟨e1, he1⟩ := stripCR_extend ((splitNl stdout).dropLast.getLast hdne)
      obtain ⟨e2, he2⟩ :=
        stripCR_extend (stripCR ((splitNl stdout).dropLast.getLast hdne))
      refine ⟨(splitNl stdout).dropLast.getLast hdne,
        stripCR (stripCR ((splitNl stdout).dropLast.getLast hdne)),
        e2 ++ e1, ?_, ?_, ?_⟩
      · simp only [rawLines, hlast]
        exact List.getLast?_eq_getLast _ hdne
      · simp only [ioLines, hlast]
        rw [List.getLast?_map, List.getLast?_map,
          List.getLast?_eq_getLast _ hdne]
        rfl
      · conv_lhs => rw [he1, he2]
        rw [List.append_assoc]
  | cons c l2 =>
    right
    obtain ⟨e1, he1⟩ := stripCR_extend (c :: l2)
    refine ⟨c :: l2, stripCR (c :: l2), e1, ?_, ?_, ?_⟩
    · simp only [rawLines, hlast]
      exact List.getLast?_concat _
    · simp only [ioLines, hlast]
      rw [List.map_append]
      simp only [List.map_cons, List.map_nil]
      exact List.getLast?_concat _
    · exact he1

/-- C4: if the byte stream has no lines, or its last raw line does not match
the claim's summary grammar `OK\s*\(\s*(\d+)\s+Errors\s*,\s*(\d+)\s+Warnings\s*\)`
(case-insensitively, searched anywhere in the line), then parsing fails and
produces no partial result (the counts are never silently zero-filled). -/
theorem from_stdout_malformed (stdout : List Char)
    (h : rawLines stdout = [] ∨
      ∃ l, (rawLines stdout).getLast? = some l ∧ claimSummaryCaptures l = none) :
    from_stdout stdout = none := by
  rcases ho : from_stdout stdout with _ | q
  · rfl
  exfalso
  rw [from_stdout] at ho
  rcases hl : ((ioLines stdout).map stripCR).getLast? with _ | last <;> rw [hl] at ho
  · simp at ho
  dsimp only at ho
  rcases hc : resultCaptures last with _ | caps <;> rw [hc] at ho
  · simp at ho
  rcases raw_vs_processed stdout with ⟨hr0, hp0⟩ | ⟨lraw, lproc, ext, hraw, hproc, hext⟩
  · rw [hp0] at hl
    simp at hl
  · rw [hproc] at hl
    simp only [Option.some.injEq] at hl
    subst hl
    rcases h with h | ⟨l, hlr, hclaim⟩
    · rw [h] at hraw
      simp at hraw
    · rw [hraw] at hlr
      simp only [Option.some.injEq] at hlr
      subst hlr
      obtain ⟨q2, hq2⟩ := resultCaptures_claim_append lproc ext caps hc
      rw [← hext] at hq2
      rw [hclaim] at hq2
      exact Option.noConfusion hq2

/-- Witness for C4: a stream whose last line is not a summary line fails to
parse. -/
theorem from_stdout_malformed_witness :
    (rawLines "hello\nDone".toList = [] ∨
      ∃ l, (rawLines "hello\nDone".toList).getLast? = some l ∧
        claimSummaryCaptures l = none) ∧
    from_stdout "hello\nDone".toList = none :=
  ⟨Or.inr ⟨"Done".toList, by decide, by decide⟩,
    from_stdout_malformed "hello\nDone".toList
      (Or.inr ⟨"Done".toList, by decide, by decide⟩)⟩

/-! ## C3: parsing a stream with a well-formed summary line -/

theorem digit_not_space (c : Char) (h : isDigitCh c = true) :
    isSpaceCh c = false := by
  rw [isSpaceCh]
  by_contra hs
  simp only [Bool.not_eq_false, Bool.or_eq_true, decide_eq_true_eq] at hs
  rcases hs with ((((h1 | h1) | h1) | h1) | h1) | h1 <;> subst h1 <;>
    exact absurd h (by decide)

theorem takeWhile_all_append (p : Char → Bool) (s t : List Char)
    (hs : s.all p = true) : (s ++ t).takeWhile p = s ++ t.takeWhile p := by
  induction s with
  | nil => simp
  | cons c s2 ih =>
    simp only [List.all_cons, Bool.and_eq_true] at hs
    rw [List.cons_append, List.takeWhile_cons_of_pos hs.1, ih hs.2,
      List.cons_append]

theorem dropWhile_all_append (p : Char → Bool) (s t : List Char)
    (hs : s.all p = true) : (s ++ t).dropWhile p = t.dropWhile p := by
  induction s with
  | nil => simp
  | cons c s2 ih =>
    simp only [List.all_cons, Bool.and_eq_true] at hs
    rw [List.cons_append, List.dropWhile_cons_of_pos hs.1, ih hs.2]

theorem digitsCG_all_append (s : List Char) (c : Char) (t : List Char)
    (hne : s ≠ []) (hs : s.all isDigitCh = true) (hc : isDigitCh c = false) :
    digitsCG (s ++ c :: t) = some (s, c :: t) := by
  rw [digitsCG, takeWhile_all_append isDigitCh s (c :: t) hs,
    dropWhile_all_append isDigitCh s (c :: t) hs,
    List.takeWhile_cons_of_neg (by simp [hc]),
    List.dropWhile_cons_of_neg (by simp [hc]), List.append_nil,
    if_neg (by simp [hne])]

/-- The source summary matcher accepts the canonical well-formed line and
captures exactly its two digit fields. -/
theorem okTail_okLine (es ws : List Char) (hes : es ≠ [])
    (hesd : es.all isDigitCh = true) (hws : ws ≠ [])
    (hwsd : ws.all isDigitCh = true) :
    okTail (okLine es ws) = some ((es, ws), []) := by
  obtain ⟨e0, es2, rfl⟩ := List.exists_cons_of_ne_nil hes
  obtain ⟨w0, ws2, rfl⟩ := List.exists_cons_of_ne_nil hws
  have he0 : isDigitCh e0 = true := by
    simp only [List.all_cons, Bool.and_eq_true] at hesd
    exact hesd.1
  have hw0 : isDigitCh w0 = true := by
    simp only [List.all_cons, Bool.and_eq_true] at hwsd
    exact hwsd.1
  have he0s : isSpaceCh e0 = false := digit_not_space e0 he0
  have hw0s : isSpaceCh w0 = false := digit_not_space w0 hw0
  have hOKline : okLine (e0 :: es2) (w0 :: ws2) =
      'O' :: 'K' :: ' ' :: '(' ::
        ((e0 :: es2) ++
          (' ' :: 'E' :: 'r' :: 'r' :: 'o' :: 'r' :: 's' :: ',' :: ' ' ::
            ((w0 :: ws2) ++
              (' ' :: 'W' :: 'a' :: 'r' :: 'n' :: 'i' :: 'n' :: 'g' :: 's' ::
                ')' :: [])))) := rfl
  have lOK : ∀ r : List Char,
      litCG "OK".toList ('O' :: 'K' :: r) = some (['O', 'K'], r) := fun _ => rfl
  have sp1 : ∀ r : List Char, spPlus (' ' :: '(' :: r) = some ('(' :: r) :=
    fun _ => rfl
  have ex1 : ∀ r : List Char, expectC '(' ('(' :: r) = some r := fun _ => rfl
  have stE : ∀ r : List Char,
      spStar ((e0 :: es2) ++ r) = (e0 :: es2) ++ r := by
    intro r
    rw [List.cons_append, spStar, List.dropWhile_cons_of_neg (by simp [he0s])]
  have hdig1 : ∀ t2 : List Char,
      digitsCG ((e0 :: es2) ++ ' ' :: t2) = some ((e0 :: es2), ' ' :: t2) :=
    fun t2 => digitsCG_all_append _ ' ' t2 (by simp) hesd (by decide)
  have spE : ∀ r : List Char, spPlus (' ' :: 'E' :: r) = some ('E' :: r) :=
    fun _ => rfl
  have lErr : ∀ r : List Char,
      litCG "Errors".toList ('E' :: 'r' :: 'r' :: 'o' :: 'r' :: 's' :: r) =
        some (['E', 'r', 'r', 'o', 'r', 's'], r) := fun _ => rfl
  have stC : ∀ r : List Char, spStar (',' :: r) = ',' :: r := fun _ => rfl
  have exC : ∀ r : List Char, expectC ',' (',' :: r) = some r := fun _ => rfl
  have stW : ∀ r : List Char,
      spStar (' ' :: ((w0 :: ws2) ++ r)) = (w0 :: ws2) ++ r := by
    intro r
    rw [spStar, List.dropWhile_cons_of_pos (by decide), List.cons_append,
      List.dropWhile_cons_of_neg (by simp [hw0s])]
  have hdig2 : ∀ t2 : List Char,
      digitsCG ((w0 :: ws2) ++ ' ' :: t2) = some ((w0 :: ws2), ' ' :: t2) :=
    fun t2 => digitsCG_all_append _ ' ' t2 (by simp) hwsd (by decide)
  have spW : ∀ r : List Char, spPlus (' ' :: 'W' :: r) = some ('W' :: r) :=
    fun _ => rfl
  have lWar : ∀ r : List Char,
      litCG "Warnings".toList
          ('W' :: 'a' :: 'r' :: 'n' :: 'i' :: 'n' :: 'g' :: 's' :: r) =
        some (['W', 'a', 'r', 'n', 'i', 'n', 'g', 's'], r) := fun _ => rfl
  have stP : spStar [')'] = [')'] := rfl
  have exP : expectC ')' [')'] = some [] := rfl
  simp only [okTail, hOKline, lOK, Option.some_bind, sp1, ex1, stE, hdig1, spE,
    lErr, stC, exC, stW, hdig2, spW, lWar, stP, exP, Option.map_some']

/-- Unanchored search finds the summary immediately on the canonical line. -/
theorem resultCaptures_okLine (es ws : List Char) (hes : es ≠ [])
    (hesd : es.all isDigitCh = true) (hws : ws ≠ [])
    (hwsd : ws.all isDigitCh = true) :
    resultCaptures (okLine es ws) = some ((es, ws), []) := by
  have h := okTail_okLine es ws hes hesd hws hwsd
  have hcons : okLine es ws =
      'O' :: ('K' :: (' ' :: ('(' ::
        (es ++ (" Errors, ".toList ++ (ws ++ " Warnings)".toList)))))) := rfl
  rw [hcons, resultCaptures, ← hcons, h, Option.some_orElse]

theorem splitNl_no_nl (l : List Char) (h : '\n' ∉ l) : splitNl l = [l] := by
  induction l with
  | nil => rfl
  | cons c rest ih =>
    rw [splitNl, if_neg (by intro h0; exact h (by simp [h0])),
      ih (fun hm => h (by simp [hm]))]

theorem splitNl_append_nl (l s : List Char) (h : '\n' ∉ l) :
    splitNl (l ++ '\n' :: s) = l :: splitNl s := by
  induction l with
  | nil => simp [splitNl]
  | cons c rest ih =>
    rw [List.cons_append, splitNl, if_neg (by intro h0; exact h (by simp [h0])),
      ih (fun hm => h (by simp [hm]))]

theorem ioLines_single (l : List Char) (h : '\n' ∉ l) (hne : l ≠ []) :
    ioLines l = [l] := by
  rw [ioLines, splitNl_no_nl l h]
  cases l with
  | nil => exact absurd rfl hne
  | cons c cs => simp

theorem ioLines_cons (l s : List Char) (h : '\n' ∉ l) :
    ioLines (l ++ '\n' :: s) = stripCR l :: ioLines s := by
  rw [ioLines, ioLines, splitNl_append_nl l s h]
  obtain ⟨s0, ss, hs⟩ := List.exists_cons_of_ne_nil (splitNl_ne_nil s)
  rw [hs]
  rcases hx : (s0 :: ss).getLast? with _ | lx
  · rw [List.getLast?_eq_none_iff] at hx
    simp at hx
  · rw [List.getLast?_cons_cons, hx]
    cases lx with
    | nil => simp
    | cons c cs => simp

/-- Joining newline-free lines and scanning them back is the identity up to
the CRLF strip on the newline-terminated (non-final) lines. -/
theorem ioLines_join (pre : List (List Char)) (last : List Char)
    (hpre : ∀ l ∈ pre, '\n' ∉ l) (hl : '\n' ∉ last) (hne : last ≠ []) :
    ioLines (joinNl (pre ++ [last])) = pre.map stripCR ++ [last] := by
  induction pre with
  | nil => simp [joinNl, ioLines_single last hl hne]
  | cons l pre2 ih =>
    have hj : joinNl ((l :: pre2) ++ [last]) =
        l ++ '\n' :: joinNl (pre2 ++ [last]) := by
      cases pre2 <;> rfl
    rw [hj, ioLines_cons l _ (hpre l (by simp)),
      ih (fun x hx => hpre x (by simp [hx]))]
    simp

/-- The last character of the canonical summary line is the parenthesis, so
normalisation leaves it unchanged. -/
theorem stripCR_okLine (es ws : List Char) :
    stripCR (okLine es ws) = okLine es ws := by
  have h1 : (" Warnings)".toList : List Char) = " Warnings".toList ++ [')'] := rfl
  have hlast : (okLine es ws).getLast? = some ')' := by
    rw [okLine, h1]
    simp only [← List.append_assoc]
    exact List.getLast?_concat _
  rw [stripCR, if_neg (by rw [hlast]; decide)]

/-- C3 (amended): for a stream assembled from newline-free lines followed by
the well-formed summary line `OK (e Errors, w Warnings)` whose counts fit in
`u32`, parsing returns exactly those counts, and the `lines` sequence is the
preceding lines in order with up to two trailing carriage returns stripped
from each: one by the CRLF handling of the line split and one more by the
explicit normalisation loop. -/
theorem from_stdout_wellformed (pre : List (List Char)) (es ws : List Char)
    (hpre : ∀ l ∈ pre, '\n' ∉ l) (hes : es ≠ [])
    (hesd : es.all isDigitCh = true) (hws : ws ≠ [])
    (hwsd : ws.all isDigitCh = true) (he : digitsVal es < 2 ^ 32)
    (hw : digitsVal ws < 2 ^ 32) :
    from_stdout (joinNl (pre ++ [okLine es ws])) =
      some ⟨pre.map (fun l => stripCR (stripCR l)),
        digitsVal es, digitsVal ws⟩ := by
  have hok_cons : okLine es ws =
      'O' :: ('K' :: (' ' :: ('(' ::
        (es ++ (" Errors, ".toList ++ (ws ++ " Warnings)".toList)))))) := rfl
  have hok_nl : '\n' ∉ okLine es ws := by
    rw [hok_cons]
    intro hm
    simp only [List.mem_cons, List.mem_append] at hm
    rcases hm with h0 | h0 | h0 | h0 | h0
    · exact absurd h0 (by decide)
    · exact absurd h0 (by decide)
    · exact absurd h0 (by decide)
    · exact absurd h0 (by decide)
    rcases h0 with h0 | h0
    · have := List.all_eq_true.1 hesd '\n' h0
      exact absurd this (by decide)
    rcases h0 with h0 | h0
    · exact absurd h0 (by decide)
    rcases h0 with h0 | h0
    · have := List.all_eq_true.1 hwsd '\n' h0
      exact absurd this (by decide)
    · exact absurd h0 (by decide)
  have hok_ne : okLine es ws ≠ [] := by rw [hok_cons]; simp
  rw [from_stdout, ioLines_join pre (okLine es ws) hpre hok_nl hok_ne]
  rw [List.map_append, List.map_map, List.map_cons, List.map_nil,
    stripCR_okLine]
  rw [List.getLast?_concat, List.dropLast_concat]
  dsimp only
  rw [resultCaptures_okLine es ws hes hesd hws hwsd]
  dsimp only
  rw [parseU32, parseU32, if_pos he, if_pos hw]
  rfl

/-- Counterexample for C3: a preceding line ending in two carriage returns
before its newline loses both of them (one to the CRLF strip of the line
split, one to the normalisation loop), not just one as the claim states. -/
theorem from_stdout_strip_counterexample :
    rawLines "x\r\r\nOK (0 Errors, 0 Warnings)".toList =
      ["x\r\r".toList, "OK (0 Errors, 0 Warnings)".toList] ∧
    from_stdout "x\r\r\nOK (0 Errors, 0 Warnings)".toList =
      some ⟨["x".toList], 0, 0⟩ ∧
    stripCR "x\r\r".toList = "x\r".toList ∧
    ("x".toList : List Char) ≠ "x\r".toList := by decide

/-- Witness for C3's amended theorem on a concrete stream. -/
theorem from_stdout_wellformed_witness :
    (digitsVal "12".toList < 2 ^ 32 ∧ digitsVal "3".toList < 2 ^ 32) ∧
    from_stdout (joinNl (["hi".toList] ++ [okLine "12".toList "3".toList])) =
      some ⟨["hi".toList].map (fun l => stripCR (stripCR l)),
        digitsVal "12".toList, digitsVal "3".toList⟩ :=
  ⟨⟨by decide, by decide⟩,
    from_stdout_wellformed ["hi".toList] "12".toList "3".toList (by decide)
      (by decide) (by decide) (by decide) (by decide) (by decide) (by decide)⟩

/-! ## C9: idempotence of the dummy-identity rewrite

The key fact is that a replacement happens at a line start and both the
replaced text and the dummy tag begin with (a case variant of) `kuid`:
a failed match attempted at an earlier line start cannot begin to succeed
after the replacement, because the only pattern component that can step over
the `'\n'` that precedes the replaced region is `\s+`, and it must then be
followed by `'<'` while the region starts with `'k'`. -/

/-- A nonempty suffix keeps the last element. -/
theorem getLast?_cons_of_getLast? (c : Char) (u : List Char) (a : Char)
    (hu : (c :: u).getLast? = some a) (hne : u ≠ []) : u.getLast? = some a := by
  obtain ⟨d, u2, rfl⟩ := List.exists_cons_of_ne_nil hne
  rwa [List.getLast?_cons_cons] at hu

/-- Heads that are a case variant of `k`. -/
def HeadCiK (z : List Char) : Prop := ∃ c t, z = c :: t ∧ ciEq c 'k' = true

theorem headCiK_not_space (c : Char) (h : ciEq c 'k' = true) :
    isSpaceCh c = false := by
  by_contra hs
  simp only [Bool.not_eq_false, isSpaceCh, Bool.or_eq_true,
    decide_eq_true_eq] at hs
  rcases hs with ((((h1 | h1) | h1) | h1) | h1) | h1 <;> subst h1 <;>
    exact absurd h (by decide)

theorem headCiK_ne_lt (c : Char) (h : ciEq c 'k' = true) : c ≠ '<' := by
  intro h0
  subst h0
  exact absurd h (by decide)

/-- Barrier for a case-insensitive literal containing no newline variant:
on `u ++ x` with `u` ending in `'\n'`, it either fails for every `x` or
consumes strictly inside `u`, identically for every `x`. -/
theorem litCG_barrier (w : List Char) (hw : ∀ c ∈ w, ciEq '\n' c = false)
    (u x y : List Char) (hu : u.getLast? = some '\n') :
    (litCG w (u ++ x) = none ∧ litCG w (u ++ y) = none) ∨
    (∃ v u2, u2.getLast? = some '\n' ∧
      litCG w (u ++ x) = some (v, u2 ++ x) ∧
      litCG w (u ++ y) = some (v, u2 ++ y)) := by
  induction w generalizing u with
  | nil => exact Or.inr ⟨[], u, hu, rfl, rfl⟩
  | cons c w2 ih =>
    cases u with
    | nil => simp at hu
    | cons d u2 =>
      rw [List.cons_append, List.cons_append, litCG, litCG]
      by_cases hc : ciEq d c
      · rw [if_pos hc, if_pos hc]
        have hne : u2 ≠ [] := by
          intro h0
          subst h0
          simp only [List.getLast?_singleton, Option.some.injEq] at hu
          subst hu
          exact absurd hc (by simpa using hw c (by simp))
        have hu2 : u2.getLast? = some '\n' :=
          getLast?_cons_of_getLast? d u2 '\n' hu hne
        rcases ih (fun a ha => hw a (by simp [ha])) u2 hu2 with ⟨hx, hy⟩ |
          ⟨v, u3, hu3, hx, hy⟩
        · rw [hx, hy]
          exact Or.inl ⟨rfl, rfl⟩
        · rw [hx, hy]
          exact Or.inr ⟨d :: v, u3, hu3, rfl, rfl⟩
      · rw [if_neg hc, if_neg hc]
        exact Or.inl ⟨rfl, rfl⟩

theorem dropWhile_sp_append (u x : List Char)
    (hx : ∃ c t, x = c :: t ∧ isSpaceCh c = false) :
    (u ++ x).dropWhile isSpaceCh = u.dropWhile isSpaceCh ++ x := by
  induction u with
  | nil =>
    obtain ⟨c, t, rfl, hc⟩ := hx
    rw [List.nil_append, List.dropWhile_nil, List.nil_append,
      List.dropWhile_cons_of_neg (by simp [hc])]
  | cons d u2 ih =>
    by_cases hd : isSpaceCh d
    · rw [List.cons_append, List.dropWhile_cons_of_pos hd,
        List.dropWhile_cons_of_pos hd, ih]
    · rw [List.cons_append, List.dropWhile_cons_of_neg hd,
        List.dropWhile_cons_of_neg hd, List.cons_append]

/-- Barrier for `\s+`: the whitespace run cannot extend past a non-space
head of `x`, so the remainder is a suffix of `u` (possibly empty), again
identical for every `x`. -/
theorem spPlus_barrier (u x y : List Char) (hu : u.getLast? = some '\n')
    (hx : ∃ c t, x = c :: t ∧ isSpaceCh c = false)
    (hy : ∃ c t, y = c :: t ∧ isSpaceCh c = false) :
    (spPlus (u ++ x) = none ∧ spPlus (u ++ y) = none) ∨
    (∃ u2, (u2.getLast? = some '\n' ∨ u2 = []) ∧
      spPlus (u ++ x) = some (u2 ++ x) ∧ spPlus (u ++ y) = some (u2 ++ y)) := by
  cases u with
  | nil => simp at hu
  | cons d u2 =>
    rw [List.cons_append, List.cons_append, spPlus, spPlus]
    by_cases hd : isSpaceCh d
    · rw [if_pos hd, if_pos hd, dropWhile_sp_append u2 x hx,
        dropWhile_sp_append u2 y hy]
      refine Or.inr ⟨u2.dropWhile isSpaceCh, ?_, rfl, rfl⟩
      by_cases h0 : u2.dropWhile isSpaceCh = []
      · exact Or.inr h0
      · left
        obtain ⟨v, hv⟩ := List.dropWhile_suffix (l := u2) isSpaceCh
        have hne : u2 ≠ [] := by
          intro h2
          rw [h2] at h0
          simp at h0
        have heq : u2.getLast? = (u2.dropWhile isSpaceCh).getLast? := by
          conv_lhs => rw [← hv]
          exact List.getLast?_append_of_ne_nil v h0
        rw [← heq]
        exact getLast?_cons_of_getLast? d u2 '\n' hu hne
    · rw [if_neg hd, if_neg hd]
      exact Or.inl ⟨rfl, rfl⟩

/-- Barrier for a single non-newline literal character. -/
theorem expectC_barrier (c : Char) (hc : c ≠ '\n') (u x y : List Char)
    (hu : u.getLast? = some '\n') :
    (expectC c (u ++ x) = none ∧ expectC c (u ++ y) = none) ∨
    (∃ u2, u2.getLast? = some '\n' ∧
      expectC c (u ++ x) = some (u2 ++ x) ∧
      expectC c (u ++ y) = some (u2 ++ y)) := by
  cases u with
  | nil => simp at hu
  | cons d u2 =>
    rw [List.cons_append, List.cons_append, expectC, expectC]
    by_cases hd : d = c
    · rw [if_pos hd, if_pos hd]
      have hne : u2 ≠ [] := by
        intro h0
        subst h0
        simp only [List.getLast?_singleton, Option.some.injEq] at hu
        rw [hd] at hu
        exact hc hu
      exact Or.inr ⟨u2, getLast?_cons_of_getLast? d u2 '\n' hu hne, rfl, rfl⟩
    · rw [if_neg hd, if_neg hd]
      exact Or.inl ⟨rfl, rfl⟩

theorem takeWhile_append_stop (p : Char → Bool) (u x : List Char)
    (hstop : ∃ c ∈ u, p c = false) :
    (u ++ x).takeWhile p = u.takeWhile p ∧
    (u ++ x).dropWhile p = u.dropWhile p ++ x ∧ u.dropWhile p ≠ [] := by
  induction u with
  | nil => simp at hstop
  | cons d u2 ih =>
    by_cases hd : p d
    · have hstop2 : ∃ c ∈ u2, p c = false := by
        obtain ⟨c, hc1, hc2⟩ := hstop
        rcases List.mem_cons.1 hc1 with rfl | hc1
        · rw [hd] at hc2
          simp at hc2
        · exact ⟨c, hc1, hc2⟩
      obtain ⟨ht, hdr, hne⟩ := ih hstop2
      refine ⟨?_, ?_, ?_⟩
      · rw [List.cons_append, List.takeWhile_cons_of_pos hd,
          List.takeWhile_cons_of_pos hd, ht]
      · rw [List.cons_append, List.dropWhile_cons_of_pos hd,
          List.dropWhile_cons_of_pos hd, hdr]
      · rw [List.dropWhile_cons_of_pos hd]
        exact hne
    · refine ⟨?_, ?_, ?_⟩
      · rw [List.cons_append, List.takeWhile_cons_of_neg hd,
          List.takeWhile_cons_of_neg hd]
      · rw [List.cons_append, List.dropWhile_cons_of_neg hd,
          List.dropWhile_cons_of_neg hd, List.cons_append]
      · rw [List.dropWhile_cons_of_neg hd]
        simp

/-- Barrier for `\d+`: the digit run stops at or before the final `'\n'`. -/
theorem digitsCG_barrier (u x y : List Char) (hu : u.getLast? = some '\n') :
    (digitsCG (u ++ x) = none ∧ digitsCG (u ++ y) = none) ∨
    (∃ ds u2, u2.getLast? = some '\n' ∧
      digitsCG (u ++ x) = some (ds, u2 ++ x) ∧
      digitsCG (u ++ y) = some (ds, u2 ++ y)) := by
  have hstop : ∃ c ∈ u, isDigitCh c = false :=
    ⟨'\n', List.mem_of_getLast?_eq_some hu, by decide⟩
  obtain ⟨htx, hdx, hne⟩ := takeWhile_append_stop isDigitCh u x hstop
  obtain ⟨hty, hdy, _⟩ := takeWhile_append_stop isDigitCh u y hstop
  rw [digitsCG, digitsCG, htx, hty, hdx, hdy]
  by_cases he : (u.takeWhile isDigitCh).isEmpty
  · rw [if_pos he, if_pos he]
    exact Or.inl ⟨rfl, rfl⟩
  · rw [if_neg he, if_neg he]
    refine Or.inr ⟨u.takeWhile isDigitCh, u.dropWhile isDigitCh, ?_, rfl, rfl⟩
    obtain ⟨v, hv⟩ := List.dropWhile_suffix (l := u) isDigitCh
    have heq : u.getLast? = (u.dropWhile isDigitCh).getLast? := by
      conv_lhs => rw [← hv]
      exact List.getLast?_append_of_ne_nil v hne
    rw [← heq]
    exact hu

/-- Barrier for the optional `2`. -/
theorem optTwo_barrier (u x y : List Char) (hu : u.getLast? = some '\n') :
    ∃ v u2, u2.getLast? = some '\n' ∧
      optTwo (u ++ x) = (v, u2 ++ x) ∧ optTwo (u ++ y) = (v, u2 ++ y) := by
  cases u with
  | nil => simp at hu
  | cons d u2 =>
    rw [List.cons_append, List.cons_append, optTwo, optTwo]
    by_cases hd : d = '2'
    · rw [if_pos hd, if_pos hd]
      have hne : u2 ≠ [] := by
        intro h0
        subst h0
        simp only [List.getLast?_singleton, Option.some.injEq] at hu
        rw [hd] at hu
        exact absurd hu (by decide)
      exact ⟨['2'], u2, getLast?_cons_of_getLast? d u2 '\n' hu hne, rfl, rfl⟩
    · rw [if_neg hd, if_neg hd]
      exact ⟨[], d :: u2, hu, by rw [List.cons_append], by rw [List.cons_append]⟩

/-- Barrier for the optional `(:\d+)?`. -/
theorem optColonDigits_barrier (u x y : List Char)
    (hu : u.getLast? = some '\n') :
    (optColonDigits (u ++ x) = none ∧ optColonDigits (u ++ y) = none) ∨
    (∃ v u2, u2.getLast? = some '\n' ∧
      optColonDigits (u ++ x) = some (v, u2 ++ x) ∧
      optColonDigits (u ++ y) = some (v, u2 ++ y)) := by
  cases u with
  | nil => simp at hu
  | cons d u2 =>
    rw [List.cons_append, List.cons_append, optColonDigits, optColonDigits]
    by_cases hd : d = ':'
    · rw [if_pos hd, if_pos hd]
      have hne : u2 ≠ [] := by
        intro h0
        subst h0
        simp only [List.getLast?_singleton, Option.some.injEq] at hu
        rw [hd] at hu
        exact absurd hu (by decide)
      have hu2 := getLast?_cons_of_getLast? d u2 '\n' hu hne
      rcases digitsCG_barrier u2 x y hu2 with ⟨hx, hy⟩ | ⟨ds, u3, hu3, hx, hy⟩
      · rw [hx, hy]
        exact Or.inl ⟨rfl, rfl⟩
      · rw [hx, hy]
        exact Or.inr ⟨':' :: ds, u3, hu3, rfl, rfl⟩
    · rw [if_neg hd, if_neg hd]
      exact Or.inr ⟨[], d :: u2, hu, by rw [List.cons_append],
        by rw [List.cons_append]⟩

/-- Chain the barriers through the capture group `kuid2?:\d+:\d+(:\d+)?>`:
no component of it accepts `'\n'`, so on `u ++ x` with `u` ending in `'\n'`
it either fails for every `x` or succeeds entirely inside `u`. -/
theorem kuidGroup_barrier (u x y : List Char) (hu : u.getLast? = some '\n') :
    (kuidGroup (u ++ x) = none ∧ kuidGroup (u ++ y) = none) ∨
    (∃ g u2, kuidGroup (u ++ x) = some (g, u2 ++ x) ∧
      kuidGroup (u ++ y) = some (g, u2 ++ y)) := by
  rw [kuidGroup, kuidGroup]
  rcases litCG_barrier "kuid".toList (by decide) u x y hu with ⟨h1x, h1y⟩ |
    ⟨v1, u1, hu1, h1x, h1y⟩
  · rw [h1x, h1y]
    exact Or.inl ⟨rfl, rfl⟩
  · simp only [h1x, h1y, Option.some_bind]
    obtain ⟨v2, u2, hu2, h2x, h2y⟩ := optTwo_barrier u1 x y hu1
    simp only [h2x, h2y]
    rcases expectC_barrier ':' (by decide) u2 x y hu2 with ⟨h3x, h3y⟩ |
      ⟨u3, hu3, h3x, h3y⟩
    · simp only [h3x, h3y, Option.none_bind]
      exact Or.inl ⟨by trivial, by trivial⟩
    · simp only [h3x, h3y, Option.some_bind]
      rcases digitsCG_barrier u3 x y hu3 with ⟨h4x, h4y⟩ |
        ⟨d1, u4, hu4, h4x, h4y⟩
      · simp only [h4x, h4y, Option.none_bind]
        exact Or.inl ⟨by trivial, by trivial⟩
      · simp only [h4x, h4y, Option.some_bind]
        rcases expectC_barrier ':' (by decide) u4 x y hu4 with ⟨h5x, h5y⟩ |
          ⟨u5, hu5, h5x, h5y⟩
        · simp only [h5x, h5y, Option.none_bind]
          exact Or.inl ⟨by trivial, by trivial⟩
        · simp only [h5x, h5y, Option.some_bind]
          rcases digitsCG_barrier u5 x y hu5 with ⟨h6x, h6y⟩ |
            ⟨d2, u6, hu6, h6x, h6y⟩
          · simp only [h6x, h6y, Option.none_bind]
            exact Or.inl ⟨by trivial, by trivial⟩
          · simp only [h6x, h6y, Option.some_bind]
            rcases optColonDigits_barrier u6 x y hu6 with ⟨h7x, h7y⟩ |
              ⟨v3, u7, hu7, h7x, h7y⟩
            · simp only [h7x, h7y, Option.none_bind]
              exact Or.inl ⟨by trivial, by trivial⟩
            · simp only [h7x, h7y, Option.some_bind]
              rcases expectC_barrier '>' (by decide) u7 x y hu7 with ⟨h8x, h8y⟩ |
                ⟨u8, hu8, h8x, h8y⟩
              · simp only [h8x, h8y, Option.map_none']
                exact Or.inl ⟨by trivial, by trivial⟩
              · simp only [h8x, h8y, Option.map_some']
                exact Or.inr ⟨v1 ++ (v2 ++ ':' :: (d1 ++ ':' :: (d2 ++ v3))),
                  u8, by simp, by simp⟩

/-- The central barrier: a failed `KUID_MATCHER` attempt at a line start
before the replaced region stays failed when the region (which starts with a
case variant of `kuid`) is replaced by the dummy tag (which starts with
`kuid`), because only `\s+` can cross the `'\n'` and `'<'` must follow it. -/
theorem kuidMatchHere_barrier (u x y : List Char) (hu : u.getLast? = some '\n')
    (hx : HeadCiK x) (hy : HeadCiK y)
    (hnone : kuidMatchHere (u ++ x) = none) :
    kuidMatchHere (u ++ y) = none := by
  rw [kuidMatchHere] at hnone ⊢
  rcases litCG_barrier "kuid".toList (by decide) u x y hu with ⟨h1x, h1y⟩ |
    ⟨v1, u1, hu1, h1x, h1y⟩
  · rw [h1y]
    simp
  · simp only [h1x, Option.some_bind] at hnone
    simp only [h1y, Option.some_bind]
    have hxs : ∃ c t, x = c :: t ∧ isSpaceCh c = false := by
      obtain ⟨c, t, rfl, hc⟩ := hx
      exact ⟨c, t, rfl, headCiK_not_space c hc⟩
    have hys : ∃ c t, y = c :: t ∧ isSpaceCh c = false := by
      obtain ⟨c, t, rfl, hc⟩ := hy
      exact ⟨c, t, rfl, headCiK_not_space c hc⟩
    rcases spPlus_barrier u1 x y hu1 hxs hys with ⟨h2x, h2y⟩ |
      ⟨u2, hcase, h2x, h2y⟩
    · rw [h2y]
      simp
    · simp only [h2x, Option.some_bind] at hnone
      simp only [h2y, Option.some_bind]
      rcases hcase with hu2 | rfl
      · rcases expectC_barrier '<' (by decide) u2 x y hu2 with ⟨h3x, h3y⟩ |
          ⟨u3, hu3, h3x, h3y⟩
        · rw [h3y]
          simp
        · simp only [h3x, Option.some_bind] at hnone
          simp only [h3y, Option.some_bind]
          rcases kuidGroup_barrier u3 x y hu3 with ⟨h4x, h4y⟩ | ⟨g, u4, h4x, h4y⟩
          · exact h4y
          · rw [h4x] at hnone
            exact absurd hnone (by simp)
      · obtain ⟨cy, ty, rfl, hcy⟩ := hy
        rw [List.nil_append, expectC, if_neg (headCiK_ne_lt cy hcy)]
        simp

/-! Remainders returned by the scanners are suffixes of their input. -/

theorem litCG_suffix (w s : List Char) (p : List Char × List Char)
    (h : litCG w s = some p) : p.2 <:+ s := by
  induction w generalizing s p with
  | nil =>
    simp only [litCG, Option.some.injEq] at h
    rw [← h]
  | cons c w2 ih =>
    cases s with
    | nil => simp [litCG] at h
    | cons d s2 =>
      rw [litCG] at h
      by_cases hc : ciEq d c
      · rw [if_pos hc] at h
        rcases h2 : litCG w2 s2 with _ | p2
        · rw [h2] at h
          simp at h
        · rw [h2] at h
          simp only [Option.map_some', Option.some.injEq] at h
          have := ih s2 p2 h2
          rw [← h]
          exact this.trans (List.suffix_cons d s2)
      · rw [if_neg hc] at h
        simp at h

theorem spPlus_suffix (s r : List Char) (h : spPlus s = some r) : r <:+ s := by
  cases s with
  | nil => simp [spPlus] at h
  | cons c s2 =>
    rw [spPlus] at h
    by_cases hc : isSpaceCh c
    · rw [if_pos hc] at h
      simp only [Option.some.injEq] at h
      rw [← h]
      exact (List.dropWhile_suffix isSpaceCh).trans (List.suffix_cons c s2)
    · rw [if_neg hc] at h
      simp at h

theorem expectC_suffix (c : Char) (s r : List Char) (h : expectC c s = some r) :
    r <:+ s := by
  cases s with
  | nil => simp [expectC] at h
  | cons d s2 =>
    rw [expectC] at h
    by_cases hd : d = c
    · rw [if_pos hd] at h
      simp only [Option.some.injEq] at h
      rw [← h]
      exact List.suffix_cons d s2
    · rw [if_neg hd] at h
      simp at h

theorem digitsCG_suffix (s : List Char) (p : List Char × List Char)
    (h : digitsCG s = some p) : p.2 <:+ s := by
  rw [digitsCG] at h
  by_cases he : (s.takeWhile isDigitCh).isEmpty
  · rw [if_pos he] at h
    simp at h
  · rw [if_neg he] at h
    simp only [Option.some.injEq] at h
    rw [← h]
    exact List.dropWhile_suffix isDigitCh

theorem optTwo_suffix (s : List Char) : (optTwo s).2 <:+ s := by
  cases s with
  | nil => exact List.suffix_refl _
  | cons c s2 =>
    rw [optTwo]
    by_cases hc : c = '2'
    · rw [if_pos hc]
      exact List.suffix_cons c s2
    · rw [if_neg hc]

theorem optColonDigits_suffix (s : List Char) (p : List Char × List Char)
    (h : optColonDigits s = some p) : p.2 <:+ s := by
  cases s with
  | nil =>
    simp only [optColonDigits, Option.some.injEq] at h
    rw [← h]
  | cons c s2 =>
    rw [optColonDigits] at h
    by_cases hc : c = ':'
    · rw [if_pos hc] at h
      rcases h2 : digitsCG s2 with _ | p2
      · rw [h2] at h
        simp at h
      · rw [h2] at h
        rcases p2 with ⟨ds, r⟩
        simp only [Option.some.injEq] at h
        rw [← h]
        exact (digitsCG_suffix s2 (ds, r) h2).trans (List.suffix_cons c s2)
    · rw [if_neg hc] at h
      simp only [Option.some.injEq] at h
      rw [← h]

theorem kuidGroup_suffix (s : List Char) (g r : List Char)
    (h : kuidGroup s = some (g, r)) : r <:+ s := by
  rw [kuidGroup] at h
  rcases h1 : litCG "kuid".toList s with _ | pk <;> rw [h1] at h
  · simp at h
  simp only [Option.some_bind] at h
  rcases h2 : expectC ':' (optTwo pk.2).2 with _ | s1 <;> rw [h2] at h
  · simp at h
  simp only [Option.some_bind] at h
  rcases h3 : digitsCG s1 with _ | pd1 <;> rw [h3] at h
  · simp at h
  simp only [Option.some_bind] at h
  rcases h4 : expectC ':' pd1.2 with _ | s2 <;> rw [h4] at h
  · simp at h
  simp only [Option.some_bind] at h
  rcases h5 : digitsCG s2 with _ | pd2 <;> rw [h5] at h
  · simp at h
  simp only [Option.some_bind] at h
  rcases h6 : optColonDigits pd2.2 with _ | po <;> rw [h6] at h
  · simp at h
  simp only [Option.some_bind] at h
  rcases h7 : expectC '>' po.2 with _ | r2 <;> rw [h7] at h
  · simp at h
  simp only [Option.map_some', Option.some.injEq, Prod.mk.injEq] at h
  rw [← h.2]
  exact (((((((expectC_suffix '>' po.2 r2 h7).trans
    (optColonDigits_suffix pd2.2 po h6)).trans
    (digitsCG_suffix s2 pd2 h5)).trans
    (expectC_suffix ':' pd1.2 s2 h4)).trans
    (digitsCG_suffix s1 pd1 h3)).trans
    (expectC_suffix ':' (optTwo pk.2).2 s1 h2)).trans
    (optTwo_suffix pk.2)).trans (litCG_suffix "kuid".toList s pk h1)

/-- A successful match decomposes its input as consumed text plus rest. -/
theorem kuidMatchHere_split (s : List Char) (g r : List Char)
    (h : kuidMatchHere s = some (g, r)) : ∃ m, s = m ++ r := by
  rw [kuidMatchHere] at h
  rcases h1 : litCG "kuid".toList s with _ | p <;> rw [h1] at h
  · simp at h
  simp only [Option.some_bind] at h
  rcases h2 : spPlus p.2 with _ | s1 <;> rw [h2] at h
  · simp at h
  simp only [Option.some_bind] at h
  rcases h3 : expectC '<' s1 with _ | s2 <;> rw [h3] at h
  · simp at h
  simp only [Option.some_bind] at h
  have hsuf : r <:+ s :=
    (((kuidGroup_suffix s2 g r h).trans (expectC_suffix '<' s1 s2 h3)).trans
      (spPlus_suffix p.2 s1 h2)).trans (litCG_suffix "kuid".toList s p h1)
  obtain ⟨m, hm⟩ := hsuf
  exact ⟨m, hm.symm⟩

/-- A successful match starts with a case variant of `k`. -/
theorem kuidMatchHere_head (s : List Char) (q : List Char × List Char)
    (h : kuidMatchHere s = some q) : HeadCiK s := by
  rw [kuidMatchHere] at h
  rcases h1 : litCG "kuid".toList s with _ | p <;> rw [h1] at h
  · simp at h
  cases s with
  | nil => simp [litCG] at h1
  | cons d t =>
    by_cases hc : ciEq d 'k'
    · exact ⟨d, t, rfl, hc⟩
    · rw [show ("kuid".toList : List Char) = 'k' :: "uid".toList from rfl,
        litCG, if_neg hc] at h1
      simp at h1

/-- The dummy tag itself matches, capturing the dummy identity and leaving
exactly the rest: the basis of idempotence. -/
theorem kuidMatchHere_dummy (r : List Char) :
    kuidMatchHere (KUID_DUMMY_TAG ++ r) = some (KUID_DUMMY, r) := rfl

/-- Replacing at the head of the already-replaced text reproduces it. -/
theorem replaceKuidGo_dummy (r : List Char) :
    replaceKuidGo true (KUID_DUMMY_TAG ++ r) = KUID_DUMMY_TAG ++ r := by
  have hcons : KUID_DUMMY_TAG ++ r =
      'k' :: ("uid  <kuid:298469:999999>".toList ++ r) := rfl
  rw [hcons, replaceKuidGo, if_pos rfl, ← hcons, kuidMatchHere_dummy]

theorem getLast?_cons_ne_nil (c : Char) (u : List Char) (hne : u ≠ []) :
    (c :: u).getLast? = u.getLast? := by
  obtain ⟨d, u2, rfl⟩ := List.exists_cons_of_ne_nil hne
  exact List.getLast?_cons_cons

/-- Characterisation of `Regex::replace`: either nothing matched (and the
text is unchanged), or the text splits as `p ++ m ++ r` with the leftmost
line-start match `m` replaced by the dummy tag, `p` ending at a line
boundary (or empty at the start), and no line-start position inside `p`
admitting a match. -/
theorem replaceKuidGo_spec (s : List Char) : ∀ b : Bool,
    replaceKuidGo b s = s ∨
    ∃ p m r g, s = p ++ (m ++ r) ∧
      replaceKuidGo b s = p ++ (KUID_DUMMY_TAG ++ r) ∧
      kuidMatchHere (m ++ r) = some (g, r) ∧
      ((p = [] ∧ b = true) ∨ p.getLast? = some '\n') ∧
      (∀ p1 p2, p = p1 ++ p2 → p2 ≠ [] →
        ((p1 = [] ∧ b = true) ∨ p1.getLast? = some '\n') →
        kuidMatchHere (p2 ++ (m ++ r)) = none) := by
  induction s with
  | nil => exact fun b => Or.inl rfl
  | cons c rest ih =>
    intro b
    rw [replaceKuidGo]
    by_cases hb : b = true
    · rw [if_pos hb]
      rcases hm : kuidMatchHere (c :: rest) with _ | q
      · rcases ih (c == '\n') with heq | ⟨p, m, r, g, h1, h2, h3, h4, h5⟩
        · rw [heq]
          exact Or.inl rfl
        · refine Or.inr ⟨c :: p, m, r, g, by rw [List.cons_append, ← h1],
            by rw [List.cons_append, ← h2], h3, ?_, ?_⟩
          · right
            rcases h4 with ⟨rfl, hb2⟩ | hlast
            · simp only [List.getLast?_singleton, Option.some.injEq]
              simpa using hb2
            · have hpne : p ≠ [] := by
                intro h0
                rw [h0] at hlast
                simp at hlast
              rw [getLast?_cons_ne_nil c p hpne]
              exact hlast
          · intro p1 p2 hsplit hne hflag
            cases p1 with
            | nil =>
              simp only [List.nil_append] at hsplit
              subst hsplit
              rw [List.cons_append, ← h1]
              exact hm
            | cons c1 p1' =>
              simp only [List.cons_append, List.cons.injEq] at hsplit
              obtain ⟨rfl, hps⟩ := hsplit
              apply h5 p1' p2 hps hne
              rcases hflag with ⟨habs, _⟩ | hlast1
              · exact absurd habs (by simp)
              · cases p1' with
                | nil =>
                  left
                  simp only [List.getLast?_singleton, Option.some.injEq] at hlast1
                  exact ⟨rfl, by simp [hlast1]⟩
                | cons c2 p1'' =>
                  right
                  rw [getLast?_cons_ne_nil c (c2 :: p1'') (by simp)] at hlast1
                  exact hlast1
      · obtain ⟨m0, hm0⟩ := kuidMatchHere_split (c :: rest) q.1 q.2
          (by rw [hm])
        refine Or.inr ⟨[], m0, q.2, q.1, by simpa using hm0, by simp, ?_,
          Or.inl ⟨rfl, hb⟩, ?_⟩
        · rw [← hm0, hm]
        · intro p1 p2 hsplit hne _
          exact absurd (List.append_eq_nil.1 hsplit.symm).2 hne
    · rw [if_neg hb]
      rcases ih (c == '\n') with heq | ⟨p, m, r, g, h1, h2, h3, h4, h5⟩
      · rw [heq]
        exact Or.inl rfl
      · refine Or.inr ⟨c :: p, m, r, g, by rw [List.cons_append, ← h1],
          by rw [List.cons_append, ← h2], h3, ?_, ?_⟩
        · right
          rcases h4 with ⟨rfl, hb2⟩ | hlast
          · simp only [List.getLast?_singleton, Option.some.injEq]
            simpa using hb2
          · have hpne : p ≠ [] := by
              intro h0
              rw [h0] at hlast
              simp at hlast
            rw [getLast?_cons_ne_nil c p hpne]
            exact hlast
        · intro p1 p2 hsplit hne hflag
          cases p1 with
          | nil =>
            rcases hflag with ⟨_, hb2⟩ | habs
            · exact absurd hb2 hb
            · simp at habs
          | cons c1 p1' =>
            simp only [List.cons_append, List.cons.injEq] at hsplit
            obtain ⟨rfl, hps⟩ := hsplit
            apply h5 p1' p2 hps hne
            rcases hflag with ⟨habs, _⟩ | hlast1
            · exact absurd habs (by simp)
            · cases p1' with
              | nil =>
                left
                simp only [List.getLast?_singleton, Option.some.injEq] at hlast1
                exact ⟨rfl, by simp [hlast1]⟩
              | cons c2 p1'' =>
                right
                rw [getLast?_cons_ne_nil c (c2 :: p1'') (by simp)] at hlast1
                exact hlast1

/-- The scan walks unchanged over a prefix in which no line-start position
matches, then continues on the rest with the line-start flag set. -/
theorem replaceKuidGo_walk (p : List Char) : ∀ (b : Bool) (rest : List Char),
    ((p = [] ∧ b = true) ∨ p.getLast? = some '\n') →
    (∀ p1 p2, p = p1 ++ p2 → p2 ≠ [] →
      ((p1 = [] ∧ b = true) ∨ p1.getLast? = some '\n') →
      kuidMatchHere (p2 ++ rest) = none) →
    replaceKuidGo b (p ++ rest) = p ++ replaceKuidGo true rest := by
  induction p with
  | nil =>
    intro b rest hstart _
    rcases hstart with ⟨_, hb⟩ | habs
    · rw [hb]
      simp
    · simp at habs
  | cons c p2 ih =>
    intro b rest hstart hno
    have hstart2 : (p2 = [] ∧ (c == '\n') = true) ∨ p2.getLast? = some '\n' := by
      rcases hstart with ⟨habs, _⟩ | hlast
      · exact absurd habs (by simp)
      · cases hp2 : p2 with
        | nil =>
          left
          rw [hp2] at hlast
          simp only [List.getLast?_singleton, Option.some.injEq] at hlast
          exact ⟨rfl, by simp [hlast]⟩
        | cons d p3 =>
          right
          rw [← hp2]
          rw [getLast?_cons_ne_nil c p2 (by simp [hp2])] at hlast
          exact hlast
    have hno2 : ∀ p1 p2', p2 = p1 ++ p2' → p2' ≠ [] →
        ((p1 = [] ∧ (c == '\n') = true) ∨ p1.getLast? = some '\n') →
        kuidMatchHere (p2' ++ rest) = none := by
      intro p1 p2' hsplit hne hflag
      apply hno (c :: p1) p2' (by rw [hsplit, List.cons_append]) hne
      rcases hflag with ⟨rfl, hb2⟩ | hlast
      · right
        simp only [List.getLast?_singleton, Option.some.injEq]
        simpa using hb2
      · right
        have hpne : p1 ≠ [] := by
          intro h0
          rw [h0] at hlast
          simp at hlast
        rw [getLast?_cons_ne_nil c p1 hpne]
        exact hlast
    rw [List.cons_append, replaceKuidGo]
    by_cases hb : b = true
    · rw [if_pos hb]
      have hm : kuidMatchHere (c :: (p2 ++ rest)) = none := by
        have := hno [] (c :: p2) rfl (by simp) (Or.inl ⟨rfl, hb⟩)
        rwa [List.cons_append] at this
      rw [hm, ih (c == '\n') rest hstart2 hno2, List.cons_append]
    · rw [if_neg hb, ih (c == '\n') rest hstart2 hno2, List.cons_append]

/-- C9: the dummy-identity substitution performed on a marker file's text is
idempotent: applying `replace_kuid`'s rewrite twice yields the same text as
applying it once. -/
theorem replace_kuid_idempotent (text : List Char) :
    replace_kuid (replace_kuid text) = replace_kuid text := by
  rw [replace_kuid, replace_kuid]
  rcases replaceKuidGo_spec text true with heq | ⟨p, m, r, g, _, h2, h3, h4, h5⟩
  · rw [heq]
    exact heq
  · rw [h2]
    have hx : HeadCiK (m ++ r) := kuidMatchHere_head (m ++ r) (g, r) h3
    have hy : HeadCiK (KUID_DUMMY_TAG ++ r) :=
      ⟨'k', "uid  <kuid:298469:999999>".toList ++ r, rfl, by decide⟩
    have hno2 : ∀ p1 p2, p = p1 ++ p2 → p2 ≠ [] →
        ((p1 = [] ∧ true = true) ∨ p1.getLast? = some '\n') →
        kuidMatchHere (p2 ++ (KUID_DUMMY_TAG ++ r)) = none := by
      intro p1 p2 hsplit hne hflag
      have hEnds : p2.getLast? = some '\n' := by
        rcases h4 with ⟨hp0, _⟩ | hlast
        · rw [hp0] at hsplit
          exact absurd (List.append_eq_nil.1 hsplit.symm).2 hne
        · rw [hsplit, List.getLast?_append_of_ne_nil p1 hne] at hlast
          exact hlast
      exact kuidMatchHere_barrier p2 (m ++ r) (KUID_DUMMY_TAG ++ r) hEnds hx hy
        (h5 p1 p2 hsplit hne hflag)
    rw [replaceKuidGo_walk p true (KUID_DUMMY_TAG ++ r) h4 hno2,
      replaceKuidGo_dummy]

end Tzbuildasset
